import Mathlib

/-!
# Distributed-Cache: the LRU eviction cache and the Group load path

A shallow embedding of `cacheFlex/lru/lru.go`, `cacheFlex/byteView.go`,
`cacheFlex/cacheFlex.go` and `cacheFlex/http.go`.

Modelling conventions.
* Go pointers to `list.Element` are natural-number handles. The cells they
  point to live in `Cache.heap`; a cell exists for every handle, the handle
  `Cache.nextElem` is the next one the allocator hands out.
* `container/list` is the sequence of element handles, front first.
* The Go map `mmap` is a function from keys to optional handles.
* An `int64` is an integer between `MinInt64` and `MaxInt64`; the function `int64` is
  the Go conversion and the result of every `int64` operation: it wraps its argument
  into that range. `maxBytes` is compared only, never computed with.
* `Value.Len` returns a Go `int`, which may be negative; the code converts it with
  `int64(...)`, and so does the model.
* The `for` loop of `Add` is run with fuel: `none` means the fuel ran out.
* `OnEvicted` is an observer: every call is recorded, with what it could see
  of the cache at that moment, in `Cache.evicted`. It does not call back into
  the cache.
* Keys are strings, and `len(key)` is the size of the key in bytes (UTF-8).
* A Go result `(value, ok)` is an `Option`; a Go `error` is an optional message.
* The loader and the peers of a Group are functions; every call of one of them,
  and every log line, is appended to `Group.trace`.
* Locks are not modelled: calls are taken one at a time.
* A panic is a result of its own: the panic value, next to the state it left.
* The functions of Go's `strings`, `net/url` and `net/http` that the program calls
  are defined here after their documentation.
-/

namespace list

/-- The `MoveToFront` method of `container/list`: an element that is not in the list is
left alone, an element of the list becomes its front. -/
def MoveToFront (l : List Nat) (e : Nat) : List Nat :=
  if e ∈ l then e :: l.erase e else l

/-- The `PushFront` method of `container/list`, given the handle of the new element. -/
def PushFront (l : List Nat) (e : Nat) : List Nat := e :: l

/-- The `Back` method of `container/list`: the last element, or nil. -/
def Back (l : List Nat) : Option Nat := l.getLast?

/-- The `Remove` method of `container/list`: unlinks the element if it is in the list. -/
def Remove (l : List Nat) (e : Nat) : List Nat := l.erase e

end list

namespace lru

/-- The largest `int64`. -/
def MaxInt64 : Int := 9223372036854775807

/-- The smallest `int64`. -/
def MinInt64 : Int := -9223372036854775808

/-- The Go conversion `int64(x)`, and what an `int64` addition or subtraction makes of
the exact result `x`: the integer congruent to `x` modulo `2^64` that lies between
`MinInt64` and `MaxInt64`. -/
def int64 (x : Int) : Int :=
  (x + 9223372036854775808) % 18446744073709551616 - 9223372036854775808

/-- Value use Len to count how many bytes it stores (lru.go:24). `Len() int` may return
any Go `int`. -/
class Value (V : Type) where
  Len : V → Int

/-- Type `entry`: the node payload, a key and value pair (lru.go:18). -/
structure entry (V : Type) where
  key : String
  value : V

/-- One recorded call of `OnEvicted`: its two arguments, and the cache fields
the callback could observe while it ran. -/
structure EvictCall (V : Type) where
  key : String
  value : V
  seenLl : List Nat
  seenIndexed : Bool
  seenBytes : Int

/-- Type `Cache` (lru.go:7). `maxBytes` and `currBytes` are the `int64` fields: every
value the methods store in `currBytes` is the result of the conversion `int64`. `heap`,
`nextElem` and `evicted` carry the memory of list elements and the trace of callback
calls. -/
structure Cache (V : Type) where
  maxBytes : Int
  currBytes : Int
  ll : List Nat
  mmap : String → Option Nat
  OnEvicted : Bool
  heap : Nat → entry V
  nextElem : Nat
  evicted : List (EvictCall V)

/-- Go `len(key)`: the number of bytes of the string. -/
def keyLen (key : String) : Int := (key.utf8ByteSize : Int)

/-- Go `m[key] = ele`. -/
def mapSet (m : String → Option Nat) (key : String) (ele : Nat) : String → Option Nat :=
  fun k => if k = key then some ele else m k

/-- Go `delete(m, key)`. -/
def mapDelete (m : String → Option Nat) (key : String) : String → Option Nat :=
  fun k => if k = key then none else m k

/-- Writes the cell of a list element. -/
def heapSet {V : Type} (h : Nat → entry V) (ele : Nat) (kv : entry V) : Nat → entry V :=
  fun e => if e = ele then kv else h e

variable {V : Type}

/-- Constructor `New` (lru.go:40); `onEvicted` tells whether a callback is given. -/
def New [Inhabited V] (maxBytes : Int) (onEvicted : Bool) : Cache V :=
  { maxBytes := maxBytes
    currBytes := 0
    ll := []
    mmap := fun _ => none
    OnEvicted := onEvicted
    heap := fun _ => ⟨"", default⟩
    nextElem := 0
    evicted := [] }

namespace Cache

/-- Method `Len` (lru.go:35): the number of cache entries. -/
def Len (c : Cache V) : Nat := c.ll.length

/-- Method `RemoveOldest` (lru.go:95). -/
def RemoveOldest [Value V] (c : Cache V) : Cache V :=
  match list.Back c.ll with
  | none => c
  | some ele =>
    let kv := c.heap ele
    let c1 : Cache V :=
      { c with
        ll := list.Remove c.ll ele
        mmap := mapDelete c.mmap kv.key
        currBytes :=
          int64 (c.currBytes - int64 (int64 (keyLen kv.key) + int64 (Value.Len kv.value))) }
    if c1.OnEvicted then
      { c1 with
        evicted := c1.evicted ++
          [⟨kv.key, kv.value, c1.ll, (c1.mmap kv.key).isSome, c1.currBytes⟩] }
    else c1

/-- The insert-or-update step of `Add` (lru.go:61-70), before the eviction loop. -/
def addEntry [Value V] (c : Cache V) (key : String) (value : V) : Cache V :=
  match c.mmap key with
  | some ele =>
    let kv := c.heap ele
    { c with
      ll := list.MoveToFront c.ll ele
      currBytes :=
        int64 (c.currBytes + int64 (int64 (Value.Len value) - int64 (Value.Len kv.value)))
      heap := heapSet c.heap ele { kv with value := value } }
  | none =>
    let ele := c.nextElem
    { c with
      ll := list.PushFront c.ll ele
      heap := heapSet c.heap ele ⟨key, value⟩
      nextElem := c.nextElem + 1
      mmap := mapSet c.mmap key ele
      currBytes :=
        int64 (c.currBytes + int64 (int64 (keyLen key) + int64 (Value.Len value))) }

/-- The eviction loop of `Add` (lru.go:71-73). Each unit of fuel pays for one test
of the loop condition. -/
def evictLoop [Value V] : Nat → Cache V → Option (Cache V)
  | 0, _ => none
  | fuel + 1, c =>
    if c.maxBytes ≠ 0 ∧ c.maxBytes < c.currBytes then evictLoop fuel c.RemoveOldest
    else some c

/-- Method `Add` (lru.go:59). -/
def Add [Value V] (fuel : Nat) (c : Cache V) (key : String) (value : V) : Option (Cache V) :=
  evictLoop fuel (c.addEntry key value)

/-- Method `Get` (lru.go:85). The result `some v` stands for `(v, true)` and `none`
for `(nil, false)`. -/
def Get (c : Cache V) (key : String) : Option V × Cache V :=
  match c.mmap key with
  | some ele => (some (c.heap ele).value, { c with ll := list.MoveToFront c.ll ele })
  | none => (none, c)

end Cache

/-- The exact value of `len(key) + value.Len()` for one entry. -/
def entrySize [Value V] (kv : entry V) : Int := keyLen kv.key + Value.Len kv.value

/-- The resident entries, most recently used first. -/
def resident (c : Cache V) : List (String × V) :=
  c.ll.map (fun e => ((c.heap e).key, (c.heap e).value))

/-- The keys of the resident entries, most recently used first. -/
def keys (c : Cache V) : List String := c.ll.map (fun e => (c.heap e).key)

/-- The exact sum of `len(key) + value.Len()` over the resident entries. -/
def residentBytes [Value V] (c : Cache V) : Int := (c.ll.map (fun e => entrySize (c.heap e))).sum

/-- Consistency of the list, the key index and the byte counter: the counter is the
exact resident sum wrapped into the `int64` range. -/
structure Inv [Value V] (c : Cache V) : Prop where
  nodup : c.ll.Nodup
  fresh : ∀ e ∈ c.ll, e < c.nextElem
  indexSound : ∀ k e, c.mmap k = some e → e ∈ c.ll ∧ (c.heap e).key = k
  indexComplete : ∀ e ∈ c.ll, c.mmap (c.heap e).key = some e
  bytes : c.currBytes = int64 (residentBytes c)

/-- The cache states a program can build: `New`, then any calls of `Add`, `Get` and
`RemoveOldest`, and assignments to the exported field `OnEvicted`. -/
inductive Reachable [Value V] [Inhabited V] : Cache V → Prop
  | new (maxBytes : Int) (onEvicted : Bool) : Reachable (New maxBytes onEvicted)
  | add {c c' : Cache V} (fuel : Nat) (key : String) (value : V) :
      Reachable c → c.Add fuel key value = some c' → Reachable c'
  | get {c : Cache V} (key : String) : Reachable c → Reachable (c.Get key).2
  | removeOldest {c : Cache V} : Reachable c → Reachable c.RemoveOldest
  | setOnEvicted {c : Cache V} (b : Bool) : Reachable c → Reachable { c with OnEvicted := b }

/-- A sequence of `Add` calls, each run with the given fuel. -/
def addAll [Value V] (fuel : Nat) : Cache V → List (String × V) → Option (Cache V)
  | c, [] => some c
  | c, (k, v) :: rest => (c.Add fuel k v).bind (fun c1 => addAll fuel c1 rest)

/-- A call of `Add` or of `Get`. -/
inductive Op (V : Type) where
  | add (key : String) (value : V)
  | get (key : String)

/-- A cache together with a clock that counts the calls made so far and, for every
key, the time of its most recent access: an `Add` of the key or a `Get` that hit it
(0 when there was none). The clock and the times are bookkeeping only; the cache is
the one the calls compute. -/
structure Tracked (V : Type) where
  cache : Cache V
  clock : Nat
  lastAccess : String → Nat

namespace Tracked

/-- Records an access of `key` at time `now`. -/
def touch (last : String → Nat) (key : String) (now : Nat) : String → Nat :=
  fun k => if k = key then now else last k

/-- One call, with the bookkeeping of access times. -/
def step [Value V] (fuel : Nat) (t : Tracked V) : Op V → Option (Tracked V)
  | Op.add key value =>
    (t.cache.Add fuel key value).map
      (fun c => ⟨c, t.clock + 1, touch t.lastAccess key (t.clock + 1)⟩)
  | Op.get key =>
    let r := t.cache.Get key
    some ⟨r.2, t.clock + 1,
      if r.1.isSome then touch t.lastAccess key (t.clock + 1) else t.lastAccess⟩

/-- A sequence of calls. -/
def run [Value V] (fuel : Nat) : Tracked V → List (Op V) → Option (Tracked V)
  | t, [] => some t
  | t, op :: rest => (t.step fuel op).bind (fun t1 => run fuel t1 rest)

/-- A new cache at time 0. -/
def start [Inhabited V] (maxBytes : Int) (onEvicted : Bool) : Tracked V :=
  ⟨New maxBytes onEvicted, 0, fun _ => 0⟩

end Tracked

/-- The recency invariant: the cache is consistent, resident keys are listed from the
most recently to the least recently accessed, and no access time is in the future. -/
structure Tracked.Ordered {V : Type} [Value V] (t : Tracked V) : Prop where
  inv : Inv t.cache
  sorted : (keys t.cache).Pairwise (fun a b => t.lastAccess b < t.lastAccess a)
  past : ∀ k, t.lastAccess k ≤ t.clock

/-- The value of the latest `Add(key, .)` in a sequence of `Add` calls, if there is one. -/
def latest {V : Type} (ops : List (String × V)) (key : String) : Option V :=
  (ops.reverse.find? (fun p => decide (p.1 = key))).map Prod.snd

/-- A sequence of insert-or-update steps, with no eviction in between. -/
def addEntries {V : Type} [Value V] (c : Cache V) (ops : List (String × V)) : Cache V :=
  ops.foldl (fun c1 op => c1.addEntry op.1 op.2) c

end lru

namespace cacheFlex

/-- A ByteView holds an immutable view of bytes (byteView.go:4). -/
structure ByteView where
  bytes : List UInt8
  deriving DecidableEq

/-- The Go zero value `ByteView{}`. -/
instance : Inhabited ByteView := ⟨⟨[]⟩⟩

/-- Helper `cloneBytes` (byteView.go:26): a copy of the data; on immutable lists a
copy is the list itself. -/
def cloneBytes (bytes : List UInt8) : List UInt8 := bytes

namespace ByteView

/-- Method `Len` (byteView.go:9): the view's length. -/
def Len (v : ByteView) : Nat := v.bytes.length

/-- Method `ByteSlice` (byteView.go:16): a copy of the data. -/
def ByteSlice (v : ByteView) : List UInt8 := cloneBytes v.bytes

end ByteView

/-- ByteView implements `lru.Value` through its `Len` method. -/
instance : lru.Value ByteView := ⟨fun v => (v.Len : Int)⟩

/-- A value that reports the length `len`, whatever it stores: the interface
`lru.Value` (lru.go:24) asks for nothing but a method `Len() int`. -/
structure Sized where
  len : Int
  deriving DecidableEq

/-- The zero value of `Sized`. -/
instance : Inhabited Sized := ⟨⟨0⟩⟩

/-- Sized implements `lru.Value`. -/
instance : lru.Value Sized := ⟨Sized.len⟩

/-- Modelled from the spec: the concurrent cache wrapper `cache` (the type of
`Group.mainCache`; its file is not among the sources). Spec 4.2: it guards a single
eviction cache, constructed lazily on the first `add` with the configured byte budget.
The lock is not modelled: calls are taken one at a time. -/
structure cache where
  cacheBytes : Int
  lru : Option (lru.Cache ByteView)

namespace cache

/-- Modelled from the spec: `add` of the wrapper (spec 4.2): constructs the eviction
cache on the first call, with the configured budget and no purge callback, then adds. -/
def add (fuel : Nat) (c : cache) (key : String) (value : ByteView) : Option cache :=
  let l := match c.lru with
    | none => lru.New c.cacheBytes false
    | some l => l
  (l.Add fuel key value).map (fun l1 => { c with lru := some l1 })

/-- Modelled from the spec: `get` of the wrapper (spec 4.2): a clean miss on an
unconstructed cache, otherwise the lookup of the eviction cache. -/
def get (c : cache) (key : String) : Option ByteView × cache :=
  match c.lru with
  | none => (none, c)
  | some l => ((l.Get key).1, { c with lru := some (l.Get key).2 })

end cache

/-- A Go `error` value: `none` is nil, `some msg` an error with that text. -/
abbrev Err := Option String

/-- A Getter loads data for a key (cacheFlex.go:16): the result is `([]byte, error)`. -/
abbrev Getter := String → List UInt8 × Err

/-- Interface `PeerGetter` (used at cacheFlex.go:135): `Get(group, key)` gives
`([]byte, error)`. -/
abbrev PeerGetter := String → String → List UInt8 × Err

/-- Interface `PeerPicker` (used at cacheFlex.go:124): `PickPeer(key)` gives
`(peer, ok)`; `none` stands for `ok == false`. -/
abbrev PeerPicker := String → Option PeerGetter

/-- What a Group does to the outside world, in order. -/
inductive Event where
  | logHit
  | logPeerFailure (err : String)
  | loaderCall (key : String)
  | pickPeer (key : String)
  | peerGet (group : String) (key : String)
  deriving DecidableEq

/-- Type `Group` (cacheFlex.go:31), with the trace of its outside calls. -/
structure Group where
  name : String
  getter : Getter
  mainCache : cache
  peers : Option PeerPicker
  trace : List Event

/-- The result of a call that returns `(ByteView, error)` and leaves the Group in a
new state. -/
abbrev Result := (ByteView × Err) × Group

namespace Group

/-- Method `populateCache` (cacheFlex.go:107). -/
def populateCache (fuel : Nat) (g : Group) (key : String) (value : ByteView) : Option Group :=
  (g.mainCache.add fuel key value).map (fun m => { g with mainCache := m })

/-- Method `getLocally` (cacheFlex.go:96): retrieve data from the local source and add
it to the cache. -/
def getLocally (fuel : Nat) (g : Group) (key : String) : Option Result :=
  let r := g.getter key
  let g1 : Group := { g with trace := g.trace ++ [Event.loaderCall key] }
  match r.2 with
  | some err => some ((⟨[]⟩, some err), g1)
  | none =>
    let value : ByteView := ⟨cloneBytes r.1⟩
    (g1.populateCache fuel key value).map (fun g2 => ((value, none), g2))

/-- Method `getFromPeer` (cacheFlex.go:135). -/
def getFromPeer (g : Group) (peer : PeerGetter) (key : String) : Result :=
  let r := peer g.name key
  let g1 : Group := { g with trace := g.trace ++ [Event.peerGet g.name key] }
  match r.2 with
  | some err => ((⟨[]⟩, some err), g1)
  | none => ((⟨r.1⟩, none), g1)

/-- Method `load` (cacheFlex.go:122). -/
def load (fuel : Nat) (g : Group) (key : String) : Option Result :=
  match g.peers with
  | some peers =>
    let g1 : Group := { g with trace := g.trace ++ [Event.pickPeer key] }
    match peers key with
    | some peer =>
      let r := g1.getFromPeer peer key
      match r.1.2 with
      | none => some ((r.1.1, none), r.2)
      | some err =>
        getLocally fuel { r.2 with trace := r.2.trace ++ [Event.logPeerFailure err] } key
    | none => getLocally fuel g1 key
  | none => getLocally fuel g key

/-- Method `Get` (cacheFlex.go:75): value for a key from cache. -/
def Get (fuel : Nat) (g : Group) (key : String) : Option Result :=
  if key = "" then some ((⟨[]⟩, some "key is required"), g)
  else
    let r := g.mainCache.get key
    let g1 : Group := { g with mainCache := r.2 }
    match r.1 with
    | some v => some ((v, none), { g1 with trace := g1.trace ++ [Event.logHit] })
    | none => load fuel g1 key

end Group

/-- Number of loader invocations recorded in a trace. -/
def loaderCalls (t : List Event) : Nat :=
  (t.filter (fun e => match e with | Event.loaderCall _ => true | _ => false)).length

/-- Number of peer consultations (picks and remote fetches) recorded in a trace. -/
def peerCalls (t : List Event) : Nat :=
  (t.filter (fun e => match e with
    | Event.pickPeer _ => true
    | Event.peerGet _ _ => true
    | _ => false)).length

end cacheFlex

namespace cacheFlex

/-- Number of entries held by the wrapper: 0 while the eviction cache is unconstructed. -/
def cache.entries (c : cache) : Nat :=
  match c.lru with
  | none => 0
  | some l => l.Len

/-- The wrapper states a program can build: a fresh wrapper with its byte budget, then
any calls of `add` and `get`. -/
inductive cache.Reachable : cache → Prop
  | fresh (cacheBytes : Int) : cache.Reachable ⟨cacheBytes, none⟩
  | add {c c1 : cache} (fuel : Nat) (key : String) (value : ByteView) :
      cache.Reachable c → c.add fuel key value = some c1 → cache.Reachable c1
  | get {c : cache} (key : String) : cache.Reachable c → cache.Reachable (c.get key).2

/-- The eviction cache of the wrapper, when constructed, is consistent and has the
wrapper's byte budget. -/
def cache.Ok (c : cache) : Prop :=
  ∀ l, c.lru = some l → lru.Inv l ∧ l.maxBytes = c.cacheBytes

end cacheFlex

namespace cacheFlex

/-- Number of remote fetches recorded in a trace. -/
def remoteFetches (t : List Event) : Nat :=
  (t.filter (fun e => match e with | Event.peerGet _ _ => true | _ => false)).length

/-- Number of peer picks recorded in a trace. -/
def peerPicks (t : List Event) : Nat :=
  (t.filter (fun e => match e with | Event.pickPeer _ => true | _ => false)).length

/-- The process-wide mapping `groups` (cacheFlex.go:41) from names to Groups. A Group is
known by the name it is registered under, and the mapping holds its current state. -/
abbrev Groups := String → Option Group

/-- Function `NewGroup` (cacheFlex.go:45): a nil getter (`none`) is a panic, otherwise the
new Group is registered under its name. -/
def NewGroup (groups : Groups) (name : String) (cacheBytes : Int) (getter : Option Getter) :
    Except String (Group × Groups) :=
  match getter with
  | none => Except.error "nil Getter"
  | some getter =>
    let g : Group := ⟨name, getter, ⟨cacheBytes, none⟩, none, []⟩
    Except.ok (g, fun n => if n = name then some g else groups n)

/-- Function `GetGroup` (cacheFlex.go:67): the named group, or nil. -/
def GetGroup (groups : Groups) (name : String) : Option Group := groups name

/-- Method `RegisterPeers` (cacheFlex.go:115). The argument is a Go interface value, so
it may be nil (`none`). The result is the panic value, if the call panicked, and the
Group as the call left it. -/
def Group.RegisterPeers (g : Group) (peers : Option PeerPicker) : Option String × Group :=
  if g.peers.isSome then (some "RegisterPeerPicker called more than once", g)
  else (none, { g with peers := peers })

end cacheFlex

namespace strings

/-- Go `strings.HasPrefix`. -/
def HasPrefix (s pre : String) : Bool := pre.data.isPrefixOf s.data

/-- The part of a list of characters before the first `sep` and the part after it, if
`sep` occurs. -/
def cut (sep : Char) : List Char → Option (List Char × List Char)
  | [] => none
  | c :: cs =>
    if c = sep then some ([], cs)
    else match cut sep cs with
      | none => none
      | some (a, b) => some (c :: a, b)

/-- Go `strings.SplitN(s, sep, 2)` for a separator of one character: the string itself
when `sep` does not occur, otherwise the parts before and after its first occurrence. -/
def SplitN (s : String) (sep : Char) : List String :=
  match cut sep s.data with
  | none => [s]
  | some (a, b) => [String.mk a, String.mk b]

/-- Go `s[len(pre):]` for a string `s` that starts with `pre`. -/
def sliceFrom (s pre : String) : String := String.mk (s.data.drop pre.data.length)

end strings

namespace url

/-- Digit `n` of Go's `upperhex` table. -/
def upperhex (n : Nat) : Char := "0123456789ABCDEF".data.getD n '0'

/-- Go `shouldEscape(c, encodeQueryComponent)`: everything is escaped but the letters,
the digits and `-`, `_`, `.`, `~`. -/
def shouldEscape (c : Nat) : Bool :=
  !((97 ≤ c && c ≤ 122) || (65 ≤ c && c ≤ 90) || (48 ≤ c && c ≤ 57) ||
    c = 45 || c = 95 || c = 46 || c = 126)

/-- The escape of one byte in `QueryEscape`: a space is `+`, an escaped byte is `%XX`. -/
def escapeByte (c : Nat) : List Char :=
  if c = 32 then ['+']
  else if shouldEscape c then ['%', upperhex (c / 16), upperhex (c % 16)]
  else [Char.ofNat c]

/-- Go `url.QueryEscape`, byte by byte over the UTF-8 form of the string. -/
def QueryEscape (s : String) : String :=
  String.mk ((s.data.flatMap String.utf8EncodeChar).flatMap (fun b => escapeByte b.toNat))

/-- The request path a server sees for the URL `u` sent to the address `peer`, when
what follows the address has no escape and no query: it is what follows the address. -/
def pathAt (peer u : String) : Option String :=
  if strings.HasPrefix u peer then some (strings.sliceFrom u peer) else none

end url

namespace http

/-- The body of a response: a text or raw bytes. -/
inductive Body where
  | text (s : String)
  | bytes (b : List UInt8)
  deriving DecidableEq

/-- What a handler wrote to its `http.ResponseWriter`. -/
structure Response where
  status : Nat
  contentType : String
  body : Body
  deriving DecidableEq

/-- Go `http.Error`: a plain-text reply with the given status code; the message is
written with a newline. -/
def Error (msg : String) (code : Nat) : Response :=
  ⟨code, "text/plain; charset=utf-8", Body.text (msg ++ "\n")⟩

/-- What `http.Get` hands back when the exchange itself worked: the status code, the
status line and the result of reading the body. -/
structure Result where
  statusCode : Nat
  status : String
  body : Except String (List UInt8)

end http

namespace cacheFlex

/-- Constant `defaultBasePath` (http.go:15). -/
def defaultBasePath : String := "/_cacheFlex/"

/-- Constant `defaultReplicas` (http.go:16). -/
def defaultReplicas : Nat := 50

/-- Type `httpGetter` (http.go:83). -/
structure httpGetter where
  baseURL : String

/-- Modelled from the spec: the consistent-hash ring `consistentHash.Map` (its package is
not among the sources), kept as its replica count and the peers added to it (spec 4.3).
Its lookup is not needed here. -/
structure consistentHashMap where
  replicas : Nat
  added : List String

/-- Type `HTTPPool` (http.go:20). Before `Set` the ring is nil and there are no getters. -/
structure HTTPPool where
  self : String
  basePath : String
  peers : Option consistentHashMap
  httpGetters : String → Option httpGetter

/-- Function `NewHTTPPool` (http.go:29). -/
def NewHTTPPool (self : String) : HTTPPool := ⟨self, defaultBasePath, none, fun _ => none⟩

namespace HTTPPool

/-- Method `Set` (http.go:137): a new ring over the peers, and one `httpGetter` per peer
whose base URL is the peer's address followed by the base path. -/
def Set (p : HTTPPool) (peers : List String) : HTTPPool :=
  { p with
    peers := some ⟨defaultReplicas, peers⟩
    httpGetters := fun peer => if peer ∈ peers then some ⟨peer ++ p.basePath⟩ else none }

end HTTPPool

namespace httpGetter

/-- The URL `u` that `Get` requests (http.go:91). -/
def requestURL (h : httpGetter) (group key : String) : String :=
  h.baseURL ++ url.QueryEscape group ++ url.QueryEscape key

/-- Method `Get` (http.go:88); `httpGet` stands for `http.Get`, which gives an error or
a result. -/
def Get (httpGet : String → Except String http.Result) (h : httpGetter) (group key : String) :
    List UInt8 × Err :=
  match httpGet (h.requestURL group key) with
  | Except.error err => ([], some err)
  | Except.ok res =>
    if res.statusCode ≠ 200 then ([], some ("server returned: " ++ res.status))
    else match res.body with
      | Except.error err => ([], some ("reading response body: " ++ err))
      | Except.ok bytes => (bytes, none)

end httpGetter

/-- How a call of `ServeHTTP` ends: with a panic, or with a response and the Groups as
the call left them. -/
inductive Served where
  | panic (msg : String)
  | response (r : http.Response) (groups : Groups)

namespace HTTPPool

/-- Method `ServeHTTP` (http.go:46) on the request path `path`. The log line is not
modelled. `none` means that the fuel of `Group.Get` ran out. -/
def ServeHTTP (fuel : Nat) (p : HTTPPool) (groups : Groups) (path : String) : Option Served :=
  if !strings.HasPrefix path p.basePath then
    some (Served.panic ("HTTPPool serving unexpected path: " ++ path))
  else
    match strings.SplitN (strings.sliceFrom path p.basePath) '/' with
    | [groupName, key] =>
      match GetGroup groups groupName with
      | none => some (Served.response (http.Error ("no such group: " ++ groupName) 404) groups)
      | some group =>
        (group.Get fuel key).map (fun r =>
          let groups1 : Groups := fun n => if n = groupName then some r.2 else groups n
          match r.1.2 with
          | some err => Served.response (http.Error err 500) groups1
          | none =>
            Served.response ⟨200, "application/octet-stream", http.Body.bytes r.1.1.ByteSlice⟩
              groups1)
    | _ => some (Served.response (http.Error "bad request" 400) groups)

end HTTPPool

end cacheFlex

namespace cacheFlex

/-- A `load` of `key` reaches the local load: no picker is registered, or the picker
returns no peer for the key, or the fetch from the peer it returns fails. -/
def Group.reachesLocalLoad (g : Group) (key : String) : Prop :=
  ∀ picker peer, g.peers = some picker → picker key = some peer → (peer g.name key).2 ≠ none

/-- The response of a call of `ServeHTTP`, if it did not panic. -/
def Served.reply : Served → Option http.Response
  | Served.panic _ => none
  | Served.response r _ => some r

/-- The state in which a call of `ServeHTTP` left the named Group, if it did not panic. -/
def Served.group (name : String) : Served → Option Group
  | Served.panic _ => none
  | Served.response _ groups => groups name

end cacheFlex

/-! ## The eviction cache: invariants -/

namespace lru

variable {V : Type} [Value V]

omit [Value V] in
/-- An integer of the `int64` range is its own conversion. -/
theorem int64_of_range {x : Int} (h1 : MinInt64 ≤ x) (h2 : x ≤ MaxInt64) : int64 x = x := by
  unfold MinInt64 at h1
  unfold MaxInt64 at h2
  unfold int64
  omega

omit [Value V] in
theorem int64_range (x : Int) : MinInt64 ≤ int64 x ∧ int64 x ≤ MaxInt64 := by
  unfold MinInt64 MaxInt64 int64
  omega

omit [Value V] in
theorem int64_zero : int64 0 = 0 := by decide

omit [Value V] in
/-- The conversion never raises a number that is not below the `int64` range. -/
theorem int64_le_of_le {s m : Int} (hlo : MinInt64 ≤ s) (h : s ≤ m) : int64 s ≤ m := by
  unfold MinInt64 at hlo
  unfold int64
  omega

omit [Value V] in
/-- The update of the counter on an existing key, without the inner conversions. -/
theorem int64_hit (a x y : Int) :
    int64 (a + int64 (int64 x - int64 y)) = int64 (a + (x - y)) := by
  unfold int64
  omega

omit [Value V] in
/-- The update of the counter on a new key, without the inner conversions. -/
theorem int64_miss (a x y : Int) :
    int64 (a + int64 (int64 x + int64 y)) = int64 (a + (x + y)) := by
  unfold int64
  omega

omit [Value V] in
/-- The update of the counter on an eviction, without the inner conversions. -/
theorem int64_evict (a x y : Int) :
    int64 (a - int64 (int64 x + int64 y)) = int64 (a - (x + y)) := by
  unfold int64
  omega

omit [Value V] in
theorem keyLen_nonneg (key : String) : 0 ≤ keyLen key := by
  unfold keyLen
  positivity

theorem entrySize_nonneg (kv : entry V) (h : 0 ≤ Value.Len kv.value) : 0 ≤ entrySize kv := by
  have := keyLen_nonneg kv.key
  unfold entrySize
  omega

theorem sum_entrySize_nonneg (h : Nat → entry V) (l : List Nat)
    (hl : ∀ e ∈ l, 0 ≤ Value.Len (h e).value) :
    0 ≤ (l.map (fun e => entrySize (h e))).sum := by
  induction l with
  | nil => simp
  | cons a l ih =>
    simp only [List.map_cons, List.sum_cons]
    have := entrySize_nonneg (h a) (hl a (List.mem_cons_self _ _))
    have := ih (fun e he => hl e (List.mem_cons_of_mem _ he))
    omega

theorem residentBytes_nonneg (c : Cache V) (hl : ∀ p ∈ resident c, 0 ≤ Value.Len p.2) :
    0 ≤ residentBytes c := by
  apply sum_entrySize_nonneg c.heap c.ll
  intro e he
  exact hl ((c.heap e).key, (c.heap e).value) (List.mem_map.2 ⟨e, he, rfl⟩)

theorem sum_heapSet_of_not_mem (h : Nat → entry V) (ele : Nat) (kv : entry V) (l : List Nat)
    (hn : ele ∉ l) :
    (l.map (fun e => entrySize (heapSet h ele kv e))).sum
      = (l.map (fun e => entrySize (h e))).sum := by
  congr 1
  apply List.map_congr_left
  intro a ha
  have : a ≠ ele := fun hae => hn (hae ▸ ha)
  simp [heapSet, this]

theorem sum_erase_of_mem (f : Nat → Int) (l : List Nat) (e : Nat) (he : e ∈ l) :
    (l.map f).sum = f e + ((l.erase e).map f).sum := by
  have hp := (List.perm_cons_erase he).map f
  rw [hp.sum_eq]
  simp

theorem Inv_New [Inhabited V] (maxBytes : Int) (onEvicted : Bool) :
    Inv (New maxBytes onEvicted : Cache V) := by
  refine ⟨?_, ?_, ?_, ?_, ?_⟩ <;> simp [New, residentBytes, int64_zero]

theorem Inv_of_fields {c c' : Cache V} (h : Inv c) (hll : c'.ll = c.ll) (hm : c'.mmap = c.mmap)
    (hh : c'.heap = c.heap) (hn : c'.nextElem = c.nextElem) (hb : c'.currBytes = c.currBytes) :
    Inv c' := by
  refine ⟨?_, ?_, ?_, ?_, ?_⟩
  · rw [hll]; exact h.nodup
  · rw [hll, hn]; exact h.fresh
  · rw [hll, hm, hh]; exact h.indexSound
  · rw [hll, hm, hh]; exact h.indexComplete
  · rw [hb, h.bytes]; simp [residentBytes, hll, hh]

/-- The fields of `RemoveOldest c` when the list ends in `ele`. -/
theorem RemoveOldest_snoc (c : Cache V) (ys : List Nat) (ele : Nat) (hll : c.ll = ys ++ [ele])
    (hnd : c.ll.Nodup) :
    c.RemoveOldest.ll = ys ∧
    c.RemoveOldest.mmap = mapDelete c.mmap (c.heap ele).key ∧
    c.RemoveOldest.currBytes = int64 (c.currBytes - entrySize (c.heap ele)) ∧
    c.RemoveOldest.heap = c.heap ∧
    c.RemoveOldest.nextElem = c.nextElem ∧
    c.RemoveOldest.maxBytes = c.maxBytes ∧
    c.RemoveOldest.OnEvicted = c.OnEvicted := by
  have hback : list.Back c.ll = some ele := by
    rw [list.Back, hll]; exact List.getLast?_concat ys
  have hnot : ele ∉ ys := by
    rw [hll] at hnd
    have := (List.nodup_append.1 hnd).2.2
    intro hmem
    exact this hmem (by simp)
  have herase : list.Remove c.ll ele = ys := by
    rw [list.Remove, hll, List.erase_append_right _ hnot]
    simp
  unfold Cache.RemoveOldest
  rw [hback]
  simp only [herase, entrySize, int64_evict]
  split <;> simp

theorem RemoveOldest_nil (c : Cache V) (hll : c.ll = []) : c.RemoveOldest = c := by
  unfold Cache.RemoveOldest
  simp [list.Back, hll]

theorem Inv_RemoveOldest {c : Cache V} (h : Inv c) : Inv c.RemoveOldest := by
  rcases List.eq_nil_or_concat c.ll with hnil | ⟨ys, ele, hll⟩
  · rw [RemoveOldest_nil c hnil]; exact h
  · rw [List.concat_eq_append] at hll
    obtain ⟨rll, rmm, rcb, rhp, rnx, -, -⟩ := RemoveOldest_snoc c ys ele hll h.nodup
    have hnd := h.nodup
    rw [hll] at hnd
    have hnot : ele ∉ ys := fun hmem => (List.nodup_append.1 hnd).2.2 hmem (by simp)
    refine ⟨?_, ?_, ?_, ?_, ?_⟩
    · rw [rll]; exact (List.nodup_append.1 hnd).1
    · rw [rll, rnx]; intro e he; exact h.fresh e (by rw [hll]; simp [he])
    · rw [rll, rmm, rhp]
      intro k e hk
      unfold mapDelete at hk
      split at hk
      · cases hk
      · obtain ⟨hmem, hkey⟩ := h.indexSound k e hk
        refine ⟨?_, hkey⟩
        rw [hll] at hmem
        rcases List.mem_append.1 hmem with h1 | h1
        · exact h1
        · simp at h1; subst h1; exact absurd hkey.symm (by assumption)
    · rw [rll, rmm, rhp]
      intro e he
      have hc := h.indexComplete e (by rw [hll]; simp [he])
      have hlast := h.indexComplete ele (by rw [hll]; simp)
      unfold mapDelete
      split
      · rename_i hk
        rw [hk, hlast] at hc
        cases hc
        exact absurd he hnot
      · exact hc
    · rw [rcb, h.bytes]
      simp only [residentBytes, rll, rhp, hll, List.map_append, List.sum_append, List.map_cons,
        List.map_nil, List.sum_cons, List.sum_nil]
      unfold int64
      omega

theorem addEntry_hit (c : Cache V) (key : String) (value : V) (ele : Nat)
    (h : c.mmap key = some ele) :
    c.addEntry key value =
      { c with
        ll := list.MoveToFront c.ll ele
        currBytes := int64 (c.currBytes + (Value.Len value - Value.Len (c.heap ele).value))
        heap := heapSet c.heap ele { c.heap ele with value := value } } := by
  simp [Cache.addEntry, h, int64_hit]

theorem addEntry_miss (c : Cache V) (key : String) (value : V) (h : c.mmap key = none) :
    c.addEntry key value =
      { c with
        ll := list.PushFront c.ll c.nextElem
        heap := heapSet c.heap c.nextElem ⟨key, value⟩
        nextElem := c.nextElem + 1
        mmap := mapSet c.mmap key c.nextElem
        currBytes := int64 (c.currBytes + (keyLen key + Value.Len value)) } := by
  simp [Cache.addEntry, h, int64_miss]

theorem MoveToFront_of_mem {l : List Nat} {e : Nat} (h : e ∈ l) :
    list.MoveToFront l e = e :: l.erase e := by
  simp [list.MoveToFront, h]

theorem mem_MoveToFront {l : List Nat} {e a : Nat} : a ∈ list.MoveToFront l e ↔ a ∈ l := by
  unfold list.MoveToFront
  split
  · rename_i h
    constructor
    · intro ha
      rcases List.mem_cons.1 ha with rfl | ha
      · exact h
      · exact List.mem_of_mem_erase ha
    · intro ha
      by_cases hae : a = e
      · simp [hae]
      · exact List.mem_cons_of_mem _ ((List.mem_erase_of_ne hae).2 ha)
  · rfl

theorem nodup_MoveToFront {l : List Nat} {e : Nat} (h : l.Nodup) :
    (list.MoveToFront l e).Nodup := by
  unfold list.MoveToFront
  split
  · exact List.nodup_cons.2 ⟨fun hm => ((h.mem_erase_iff).1 hm).1 rfl, h.erase e⟩
  · exact h

theorem sum_MoveToFront (f : Nat → Int) (l : List Nat) (e : Nat) :
    ((list.MoveToFront l e).map f).sum = (l.map f).sum := by
  unfold list.MoveToFront
  split
  · rename_i h
    rw [sum_erase_of_mem f l e h]; simp
  · rfl

theorem Inv_addEntry {c : Cache V} (h : Inv c) (key : String) (value : V) :
    Inv (c.addEntry key value) := by
  cases hm : c.mmap key with
  | some ele =>
    rw [addEntry_hit c key value ele hm]
    obtain ⟨hmem, hkey⟩ := h.indexSound key ele hm
    have hk : ∀ e, (heapSet c.heap ele { c.heap ele with value := value } e).key
        = (c.heap e).key := by
      intro e; unfold heapSet; split
      · rename_i he; rw [he]
      · rfl
    refine ⟨?_, ?_, ?_, ?_, ?_⟩
    · exact nodup_MoveToFront h.nodup
    · intro e he; exact h.fresh e (mem_MoveToFront.1 he)
    · intro k e hke
      obtain ⟨h1, h2⟩ := h.indexSound k e hke
      exact ⟨mem_MoveToFront.2 h1, by simp only [hk]; exact h2⟩
    · intro e he
      simp only [hk]
      exact h.indexComplete e (mem_MoveToFront.1 he)
    · simp only [residentBytes]
      rw [MoveToFront_of_mem hmem]
      have hnot : ele ∉ c.ll.erase ele := fun hm2 => ((h.nodup.mem_erase_iff).1 hm2).1 rfl
      simp only [List.map_cons, List.sum_cons]
      rw [sum_heapSet_of_not_mem _ _ _ _ hnot, h.bytes, residentBytes,
        sum_erase_of_mem (fun e => entrySize (c.heap e)) c.ll ele hmem]
      simp only [heapSet, entrySize, if_true]
      unfold int64
      omega
  | none =>
    rw [addEntry_miss c key value hm]
    have hfresh : c.nextElem ∉ c.ll := fun hmem => Nat.lt_irrefl _ (h.fresh _ hmem)
    refine ⟨?_, ?_, ?_, ?_, ?_⟩
    · exact List.nodup_cons.2 ⟨hfresh, h.nodup⟩
    · intro e he
      rcases List.mem_cons.1 he with rfl | he
      · exact Nat.lt_succ_self _
      · exact Nat.lt_succ_of_lt (h.fresh e he)
    · intro k e hke
      simp only [mapSet] at hke
      split at hke
      · rename_i hkk
        cases hke
        exact ⟨List.mem_cons_self _ _, by simp [heapSet, hkk]⟩
      · obtain ⟨h1, h2⟩ := h.indexSound k e hke
        have hne : e ≠ c.nextElem := fun he => hfresh (he ▸ h1)
        exact ⟨List.mem_cons_of_mem _ h1, by simp [heapSet, hne, h2]⟩
    · intro e he
      rcases List.mem_cons.1 he with rfl | he
      · simp [heapSet, mapSet]
      · have hne : e ≠ c.nextElem := fun he2 => hfresh (he2 ▸ he)
        have hc := h.indexComplete e he
        have hkne : (c.heap e).key ≠ key := by
          intro hk2; rw [hk2, hm] at hc; cases hc
        simp [heapSet, mapSet, hne, hkne, hc]
    · simp only [residentBytes, list.PushFront, List.map_cons, List.sum_cons]
      rw [sum_heapSet_of_not_mem _ _ _ _ hfresh, h.bytes, residentBytes]
      simp only [heapSet, entrySize, if_true]
      unfold int64
      omega

theorem Inv_Get {c : Cache V} (h : Inv c) (key : String) : Inv (c.Get key).2 := by
  unfold Cache.Get
  cases hm : c.mmap key with
  | none => exact h
  | some ele =>
    refine ⟨?_, ?_, ?_, ?_, ?_⟩
    · exact nodup_MoveToFront h.nodup
    · intro e he; exact h.fresh e (mem_MoveToFront.1 he)
    · intro k e hke
      obtain ⟨h1, h2⟩ := h.indexSound k e hke
      exact ⟨mem_MoveToFront.2 h1, h2⟩
    · intro e he; exact h.indexComplete e (mem_MoveToFront.1 he)
    · simp only [residentBytes]
      rw [sum_MoveToFront]
      exact h.bytes

theorem Inv_evictLoop {fuel : Nat} {c c' : Cache V} (h : Inv c)
    (hr : Cache.evictLoop fuel c = some c') : Inv c' := by
  induction fuel generalizing c with
  | zero => simp [Cache.evictLoop] at hr
  | succ n ih =>
    unfold Cache.evictLoop at hr
    split at hr
    · exact ih (Inv_RemoveOldest h) hr
    · cases hr; exact h

theorem Inv_Add {fuel : Nat} {c c' : Cache V} (h : Inv c) {key : String} {value : V}
    (hr : c.Add fuel key value = some c') : Inv c' :=
  Inv_evictLoop (Inv_addEntry h key value) hr

theorem Inv_of_Reachable [Inhabited V] {c : Cache V} (h : Reachable c) : Inv c := by
  induction h with
  | new m b => exact Inv_New m b
  | add fuel key value _ hr ih => exact Inv_Add ih hr
  | get key _ ih => exact Inv_Get ih key
  | removeOldest _ ih => exact Inv_RemoveOldest ih
  | setOnEvicted b _ ih => exact Inv_of_fields ih rfl rfl rfl rfl rfl

theorem RemoveOldest_maxBytes (c : Cache V) : c.RemoveOldest.maxBytes = c.maxBytes := by
  unfold Cache.RemoveOldest
  split
  · rfl
  · simp only []
    split <;> rfl

theorem RemoveOldest_OnEvicted (c : Cache V) : c.RemoveOldest.OnEvicted = c.OnEvicted := by
  unfold Cache.RemoveOldest
  split
  · rfl
  · simp only []
    split <;> rfl

theorem RemoveOldest_length_le (c : Cache V) : c.RemoveOldest.ll.length ≤ c.ll.length := by
  unfold Cache.RemoveOldest
  split
  · exact Nat.le_refl _
  · simp only []
    split <;> simp [list.Remove, List.length_erase] <;> split <;> omega

theorem addEntry_maxBytes (c : Cache V) (key : String) (value : V) :
    (c.addEntry key value).maxBytes = c.maxBytes := by
  unfold Cache.addEntry
  split <;> rfl

theorem addEntry_length_le (c : Cache V) (key : String) (value : V) :
    (c.addEntry key value).ll.length ≤ c.ll.length + 1 := by
  unfold Cache.addEntry
  split
  · simp only [list.MoveToFront]
    split
    · rename_i h
      have := List.length_pos_of_mem h
      simp only [List.length_cons, List.length_erase, h, if_true]
      omega
    · omega
  · simp [list.PushFront]

theorem evictLoop_maxBytes {fuel : Nat} {c c' : Cache V}
    (hr : Cache.evictLoop fuel c = some c') : c'.maxBytes = c.maxBytes := by
  induction fuel generalizing c with
  | zero => simp [Cache.evictLoop] at hr
  | succ n ih =>
    unfold Cache.evictLoop at hr
    split at hr
    · rw [ih hr, RemoveOldest_maxBytes]
    · cases hr; rfl

theorem evictLoop_length_le {fuel : Nat} {c c' : Cache V}
    (hr : Cache.evictLoop fuel c = some c') : c'.ll.length ≤ c.ll.length := by
  induction fuel generalizing c with
  | zero => simp [Cache.evictLoop] at hr
  | succ n ih =>
    unfold Cache.evictLoop at hr
    split at hr
    · exact Nat.le_trans (ih hr) (RemoveOldest_length_le c)
    · cases hr; exact Nat.le_refl _

/-- When the loop returns, its condition is false. -/
theorem evictLoop_exit {fuel : Nat} {c c' : Cache V}
    (hr : Cache.evictLoop fuel c = some c') :
    ¬ (c'.maxBytes ≠ 0 ∧ c'.maxBytes < c'.currBytes) := by
  induction fuel generalizing c with
  | zero => simp [Cache.evictLoop] at hr
  | succ n ih =>
    unfold Cache.evictLoop at hr
    split at hr
    · exact ih hr
    · cases hr; assumption

theorem evictLoop_mono {fuel fuel' : Nat} {c c' : Cache V}
    (hr : Cache.evictLoop fuel c = some c') (hle : fuel ≤ fuel') :
    Cache.evictLoop fuel' c = some c' := by
  induction fuel generalizing c fuel' with
  | zero => simp [Cache.evictLoop] at hr
  | succ n ih =>
    obtain ⟨m, rfl⟩ : ∃ m, fuel' = m + 1 := ⟨fuel' - 1, by omega⟩
    unfold Cache.evictLoop at hr ⊢
    split
    · rename_i hc
      rw [if_pos hc] at hr
      exact ih hr (by omega)
    · rename_i hc
      rw [if_neg hc] at hr
      exact hr

/-- With a non-negative budget the loop returns within one test per entry plus one. -/
theorem evictLoop_terminates {fuel : Nat} {c : Cache V} (h : Inv c) (hmax : 0 ≤ c.maxBytes)
    (hf : c.ll.length < fuel) : ∃ c', Cache.evictLoop fuel c = some c' := by
  induction fuel generalizing c with
  | zero => omega
  | succ n ih =>
    unfold Cache.evictLoop
    split
    · rename_i hc
      rcases List.eq_nil_or_concat c.ll with hnil | ⟨ys, ele, hll⟩
      · exfalso
        have hb := h.bytes
        simp only [residentBytes, hnil, List.map_nil, List.sum_nil, int64_zero] at hb
        omega
      · rw [List.concat_eq_append] at hll
        obtain ⟨rll, -, -, -, -, rmx, -⟩ := RemoveOldest_snoc c ys ele hll h.nodup
        apply ih (Inv_RemoveOldest h) (by rw [rmx]; exact hmax)
        rw [rll]
        rw [hll] at hf
        simp at hf
        omega
    · exact ⟨c, rfl⟩

theorem Add_maxBytes {fuel : Nat} {c c' : Cache V} {key : String} {value : V}
    (hr : c.Add fuel key value = some c') : c'.maxBytes = c.maxBytes := by
  unfold Cache.Add at hr
  rw [evictLoop_maxBytes hr, addEntry_maxBytes]

theorem Add_length_le {fuel : Nat} {c c' : Cache V} {key : String} {value : V}
    (hr : c.Add fuel key value = some c') : c'.ll.length ≤ c.ll.length + 1 :=
  Nat.le_trans (evictLoop_length_le hr) (addEntry_length_le c key value)

theorem Add_terminates (fuel : Nat) {c : Cache V} (h : Inv c) (hmax : 0 ≤ c.maxBytes)
    (key : String) (value : V) (hf : c.ll.length + 1 < fuel) :
    ∃ c', c.Add fuel key value = some c' := by
  unfold Cache.Add
  apply evictLoop_terminates (Inv_addEntry h key value)
  · rw [addEntry_maxBytes]; exact hmax
  · have := addEntry_length_le c key value
    omega

/-- After an `Add` that returns, the running total is within a nonzero budget. -/
theorem Add_within_budget {fuel : Nat} {c c' : Cache V} {key : String} {value : V}
    (hmax : c.maxBytes ≠ 0) (hr : c.Add fuel key value = some c') :
    c'.currBytes ≤ c.maxBytes := by
  have hmx := Add_maxBytes hr
  have hex := evictLoop_exit hr
  rw [hmx] at hex
  by_contra hlt
  exact hex ⟨hmax, by omega⟩

theorem addAll_Inv {fuel : Nat} {ops : List (String × V)} {c c' : Cache V} (h : Inv c)
    (hr : addAll fuel c ops = some c') : Inv c' ∧ c'.maxBytes = c.maxBytes := by
  induction ops generalizing c with
  | nil => simp [addAll] at hr; subst hr; exact ⟨h, rfl⟩
  | cons op rest ih =>
    obtain ⟨k, v⟩ := op
    simp only [addAll, Option.bind_eq_some] at hr
    obtain ⟨c1, h1, h2⟩ := hr
    obtain ⟨hi, hm⟩ := ih (Inv_Add h h1) h2
    exact ⟨hi, by rw [hm, Add_maxBytes h1]⟩

theorem addAll_within_budget {fuel : Nat} {ops : List (String × V)} {c c' : Cache V}
    (h : Inv c) (hmax : c.maxBytes ≠ 0) (hne : ops ≠ [])
    (hr : addAll fuel c ops = some c') : c'.currBytes ≤ c.maxBytes := by
  induction ops generalizing c with
  | nil => exact absurd rfl hne
  | cons op rest ih =>
    obtain ⟨k, v⟩ := op
    simp only [addAll, Option.bind_eq_some] at hr
    obtain ⟨c1, h1, h2⟩ := hr
    by_cases hrest : rest = []
    · subst hrest
      simp [addAll] at h2
      subst h2
      exact Add_within_budget hmax h1
    · have hm1 := Add_maxBytes h1
      have := ih (Inv_Add h h1) (by rw [hm1]; exact hmax) hrest h2
      rw [hm1] at this
      exact this

theorem addAll_terminates {fuel : Nat} {ops : List (String × V)} {c : Cache V}
    (h : Inv c) (hmax : 0 ≤ c.maxBytes) (hf : c.ll.length + ops.length < fuel) :
    ∃ c', addAll fuel c ops = some c' := by
  induction ops generalizing c with
  | nil => exact ⟨c, rfl⟩
  | cons op rest ih =>
    obtain ⟨k, v⟩ := op
    simp only [List.length_cons] at hf
    obtain ⟨c1, h1⟩ := Add_terminates fuel h hmax k v (by omega)
    have hl := Add_length_le h1
    obtain ⟨c2, h2⟩ := ih (Inv_Add h h1) (by rw [Add_maxBytes h1]; exact hmax) (by omega)
    exact ⟨c2, by simp [addAll, h1, h2]⟩

end lru

/-! ## The eviction cache: claims -/

namespace lru

open cacheFlex

variable {V : Type} [Value V]

/-- On an empty list the loop cannot leave a condition that is true: `RemoveOldest`
changes nothing, and the fuel runs out, whatever it is. -/
theorem evictLoop_empty (fuel : Nat) {c : Cache V} (hll : c.ll = [])
    (hc : c.maxBytes ≠ 0 ∧ c.maxBytes < c.currBytes) :
    Cache.evictLoop fuel c = none := by
  induction fuel with
  | zero => rfl
  | succ n ih =>
    unfold Cache.evictLoop
    rw [if_pos hc, RemoveOldest_nil c hll]
    exact ih

/-- C1 as stated fails, at an explicit input: on a cache built by `New` with
`maxBytes = 10`, `Add("a", v)` with `v.Len() == MaxInt64` returns with the entry
resident. The `int64` running total has wrapped to `MinInt64`, so nothing was evicted,
and the sum of `len(key) + value.Len()` over the resident entries is `2^63`, above 10. -/
theorem eviction_bound_overflow :
    ∃ c : Cache Sized, addAll 1 (New 10 false) [("a", ⟨MaxInt64⟩)] = some c ∧
      resident c = [("a", ⟨MaxInt64⟩)] ∧ c.currBytes = MinInt64 ∧
      residentBytes c = 9223372036854775808 ∧ ¬ residentBytes c ≤ 10 :=
  ⟨_, rfl, by decide, by decide, by decide, by decide⟩

/-- C1, amended (eviction bound): for a cache built by `New` with a nonzero `maxBytes`
and any non-empty sequence of `Add` calls, if the calls return then the `int64` running
total is at most `maxBytes`; that total is the sum of `len(key) + value.Len()` over the
resident entries wrapped into the `int64` range, so whenever the sum lies between
`MinInt64` and `MaxInt64` the sum itself is at most `maxBytes`. With a positive
`maxBytes` the calls do return, given one unit of fuel per call and one more. -/
theorem eviction_bound [Inhabited V] (maxBytes : Int) (onEvicted : Bool) (hmax : maxBytes ≠ 0)
    (ops : List (String × V)) (hne : ops ≠ []) (fuel : Nat) :
    (∀ c, addAll fuel (New maxBytes onEvicted) ops = some c →
      c.currBytes ≤ maxBytes ∧ c.currBytes = int64 (residentBytes c) ∧
      (MinInt64 ≤ residentBytes c → residentBytes c ≤ MaxInt64 →
        residentBytes c ≤ maxBytes)) ∧
    (0 < maxBytes → ops.length < fuel →
      ∃ c, addAll fuel (New maxBytes onEvicted) ops = some c) := by
  refine ⟨?_, ?_⟩
  · intro c hc
    have hle : c.currBytes ≤ maxBytes :=
      addAll_within_budget (Inv_New maxBytes onEvicted) hmax hne hc
    have hb := (addAll_Inv (Inv_New maxBytes onEvicted) hc).1.bytes
    refine ⟨hle, hb, ?_⟩
    intro h1 h2
    rw [hb, int64_of_range h1 h2] at hle
    exact hle
  · intro hpos hf
    exact addAll_terminates (Inv_New maxBytes onEvicted) (le_of_lt hpos) (by simpa [New] using hf)

theorem eviction_bound_witness :
    ∃ c : Cache ByteView,
      addAll 3 (New 4 true) [("ab", ⟨[1, 2]⟩), ("c", ⟨[3]⟩)] = some c ∧ residentBytes c ≤ 4 := by
  have hs : ∃ c : Cache ByteView,
      addAll 3 (New 4 true) [("ab", ⟨[1, 2]⟩), ("c", ⟨[3]⟩)] = some c ∧
      MinInt64 ≤ residentBytes c ∧ residentBytes c ≤ MaxInt64 :=
    ⟨_, rfl, by decide, by decide⟩
  obtain ⟨c, hc, h1, h2⟩ := hs
  have h := (eviction_bound (4 : Int) true (by decide)
    [("ab", (⟨[1, 2]⟩ : ByteView)), ("c", ⟨[3]⟩)] (by simp) 3).1 c hc
  exact ⟨c, hc, h.2.2 h1 h2⟩

end lru

/-! ## The eviction cache: recency order -/

namespace lru

open cacheFlex

variable {V : Type} [Value V]

theorem keys_RemoveOldest {c : Cache V} (h : Inv c) :
    keys c.RemoveOldest = (keys c).dropLast := by
  rcases List.eq_nil_or_concat c.ll with hnil | ⟨ys, ele, hll⟩
  · rw [RemoveOldest_nil c hnil]; simp [keys, hnil]
  · rw [List.concat_eq_append] at hll
    obtain ⟨rll, -, -, rhp, -, -, -⟩ := RemoveOldest_snoc c ys ele hll h.nodup
    simp [keys, rll, rhp, hll]

theorem keys_evictLoop_sublist {fuel : Nat} {c c' : Cache V} (h : Inv c)
    (hr : Cache.evictLoop fuel c = some c') : (keys c').Sublist (keys c) := by
  induction fuel generalizing c with
  | zero => simp [Cache.evictLoop] at hr
  | succ n ih =>
    unfold Cache.evictLoop at hr
    split at hr
    · have := ih (Inv_RemoveOldest h) hr
      rw [keys_RemoveOldest h] at this
      exact this.trans (List.dropLast_sublist _)
    · cases hr; exact List.Sublist.refl _

/-- Moving the element of a resident key to the front puts the key first and keeps the
order of the others. -/
theorem keys_MoveToFront {c : Cache V} (h : Inv c) {key : String} {ele : Nat}
    (hm : c.mmap key = some ele) :
    ∃ rest, (list.MoveToFront c.ll ele).map (fun e => (c.heap e).key) = key :: rest ∧
      rest.Sublist (keys c) ∧ key ∉ rest := by
  obtain ⟨hmem, hkey⟩ := h.indexSound key ele hm
  refine ⟨(c.ll.erase ele).map (fun e => (c.heap e).key), ?_, ?_, ?_⟩
  · rw [MoveToFront_of_mem hmem]; simp [hkey]
  · exact List.Sublist.map _ (List.erase_sublist ele c.ll)
  · intro hk
    obtain ⟨e, he, hek⟩ := List.mem_map.1 hk
    have h1 := h.indexComplete e (List.mem_of_mem_erase he)
    rw [hek, hm] at h1
    cases h1
    exact ((h.nodup.mem_erase_iff).1 he).1 rfl

theorem keys_addEntry {c : Cache V} (h : Inv c) (key : String) (value : V) :
    ∃ rest, keys (c.addEntry key value) = key :: rest ∧
      rest.Sublist (keys c) ∧ key ∉ rest := by
  cases hm : c.mmap key with
  | some ele =>
    rw [addEntry_hit c key value ele hm]
    have hk : ∀ e, (heapSet c.heap ele { c.heap ele with value := value } e).key
        = (c.heap e).key := by
      intro e; unfold heapSet; split
      · rename_i he; rw [he]
      · rfl
    simp only [keys, hk]
    exact keys_MoveToFront h hm
  | none =>
    rw [addEntry_miss c key value hm]
    have hfresh : c.nextElem ∉ c.ll := fun hmem => Nat.lt_irrefl _ (h.fresh _ hmem)
    refine ⟨keys c, ?_, List.Sublist.refl _, ?_⟩
    · simp only [keys, list.PushFront, List.map_cons]
      congr 1
      · simp [heapSet]
      · apply List.map_congr_left
        intro e he
        have : e ≠ c.nextElem := fun h2 => hfresh (h2 ▸ he)
        simp [heapSet, this]
    · intro hk
      obtain ⟨e, he, hek⟩ := List.mem_map.1 hk
      have h1 := h.indexComplete e he
      rw [hek, hm] at h1
      cases h1

theorem pairwise_touch {last : String → Nat} {clock : Nat} {key : String} {rest l : List String}
    (hs : l.Pairwise (fun a b => last b < last a)) (hp : ∀ k, last k ≤ clock)
    (hsub : rest.Sublist l) (hn : key ∉ rest) :
    (key :: rest).Pairwise
      (fun a b => Tracked.touch last key (clock + 1) b < Tracked.touch last key (clock + 1) a) := by
  rw [List.pairwise_cons]
  constructor
  · intro b hb
    have hbk : b ≠ key := fun hbk => hn (hbk ▸ hb)
    have := hp b
    simp only [Tracked.touch, hbk, if_false, if_true]
    omega
  · refine (hs.sublist hsub).imp_of_mem ?_
    intro a b ha hb hab
    have hak : a ≠ key := fun hak => hn (hak ▸ ha)
    have hbk : b ≠ key := fun hbk => hn (hbk ▸ hb)
    simpa [Tracked.touch, hak, hbk] using hab

theorem Ordered_step {fuel : Nat} {t t' : Tracked V} (h : t.Ordered) {op : Op V}
    (hr : t.step fuel op = some t') : t'.Ordered := by
  cases op with
  | add key value =>
    simp only [Tracked.step, Option.map_eq_some'] at hr
    obtain ⟨c, hc, rfl⟩ := hr
    obtain ⟨rest, hk, hsub, hn⟩ := keys_addEntry h.inv key value
    have hev := keys_evictLoop_sublist (Inv_addEntry h.inv key value) hc
    rw [hk] at hev
    refine ⟨Inv_Add h.inv hc, ?_, ?_⟩
    · exact (pairwise_touch h.sorted h.past hsub hn).sublist hev
    · intro k
      have := h.past k
      simp only [Tracked.touch]
      split <;> omega
  | get key =>
    simp only [Tracked.step, Option.some.injEq] at hr
    subst hr
    refine ⟨Inv_Get h.inv key, ?_, ?_⟩
    · simp only [Cache.Get]
      cases hm : t.cache.mmap key with
      | none => simpa using h.sorted
      | some ele =>
        obtain ⟨rest, hk, hsub, hn⟩ := keys_MoveToFront h.inv hm
        simp only [Option.isSome_some, if_true, keys]
        rw [hk]
        exact pairwise_touch h.sorted h.past hsub hn
    · intro k
      have := h.past k
      simp only
      split
      · simp only [Tracked.touch]; split <;> omega
      · omega

theorem Ordered_run {fuel : Nat} {ops : List (Op V)} {t t' : Tracked V} (h : t.Ordered)
    (hr : t.run fuel ops = some t') : t'.Ordered := by
  induction ops generalizing t with
  | nil => simp [Tracked.run] at hr; subst hr; exact h
  | cons op rest ih =>
    simp only [Tracked.run, Option.bind_eq_some] at hr
    obtain ⟨t1, h1, h2⟩ := hr
    exact ih (Ordered_step h h1) h2

theorem Ordered_start [Inhabited V] (maxBytes : Int) (onEvicted : Bool) :
    (Tracked.start maxBytes onEvicted : Tracked V).Ordered :=
  ⟨Inv_New maxBytes onEvicted, by simp [Tracked.start, keys, New], by simp [Tracked.start]⟩

theorem mem_keys_indexed {c : Cache V} (h : Inv c) {key : String} (hk : key ∈ keys c) :
    ∃ e, c.mmap key = some e ∧ e ∈ c.ll ∧ (c.heap e).key = key := by
  obtain ⟨e, he, hek⟩ := List.mem_map.1 hk
  exact ⟨e, hek ▸ h.indexComplete e he, he, hek⟩

theorem Get_isSome_of_mem_keys {c : Cache V} (h : Inv c) {key : String} (hk : key ∈ keys c) :
    (c.Get key).1.isSome = true := by
  obtain ⟨e, hm, -, -⟩ := mem_keys_indexed h hk
  simp [Cache.Get, hm]

/-- C2 (recency correctness): in every state reached from `New` by `Add` and `Get`
calls, the resident keys are listed in the order of their most recent access (an `Add`
of the key or a `Get` hit), latest first. Hence if resident key `A` was last accessed
after resident key `B`, `RemoveOldest` leaves `A` resident and retrievable; and on a
non-empty cache `RemoveOldest` removes one key, the last of the list, whose most recent
access is the earliest among the resident keys. -/
theorem recency_order [Inhabited V] (maxBytes : Int) (onEvicted : Bool) (fuel : Nat)
    (ops : List (Op V)) (t : Tracked V)
    (hr : (Tracked.start maxBytes onEvicted).run fuel ops = some t) :
    (keys t.cache).Pairwise (fun a b => t.lastAccess b < t.lastAccess a) ∧
    (∀ A B, A ∈ keys t.cache → B ∈ keys t.cache → t.lastAccess B < t.lastAccess A →
      A ∈ keys t.cache.RemoveOldest ∧ (t.cache.RemoveOldest.Get A).1.isSome = true) ∧
    (t.cache.ll ≠ [] → ∃ k, keys t.cache = keys t.cache.RemoveOldest ++ [k] ∧
      k ∉ keys t.cache.RemoveOldest ∧
      ∀ k1 ∈ keys t.cache, t.lastAccess k ≤ t.lastAccess k1) := by
  have ho := Ordered_run (Ordered_start maxBytes onEvicted) hr
  have hs := ho.sorted
  have hsplit : t.cache.ll ≠ [] → ∃ k, keys t.cache = keys t.cache.RemoveOldest ++ [k] := by
    intro hne
    have hkne : keys t.cache ≠ [] := by simpa [keys] using hne
    refine ⟨(keys t.cache).getLast hkne, ?_⟩
    rw [keys_RemoveOldest ho.inv]
    exact (List.dropLast_concat_getLast hkne).symm
  refine ⟨hs, ?_, ?_⟩
  · intro A B hA hB hlt
    have hne : t.cache.ll ≠ [] := by
      intro hnil; simp [keys, hnil] at hA
    obtain ⟨k, hk⟩ := hsplit hne
    rw [hk] at hs hA hB
    obtain ⟨-, -, hcross⟩ := List.pairwise_append.1 hs
    have hmem : A ∈ keys t.cache.RemoveOldest := by
      rcases List.mem_append.1 hA with h1 | h1
      · exact h1
      · exfalso
        simp only [List.mem_singleton] at h1
        subst h1
        rcases List.mem_append.1 hB with h2 | h2
        · have := hcross B h2 A (by simp)
          omega
        · simp only [List.mem_singleton] at h2
          subst h2
          omega
    exact ⟨hmem, Get_isSome_of_mem_keys (Inv_RemoveOldest ho.inv) hmem⟩
  · intro hne
    obtain ⟨k, hk⟩ := hsplit hne
    refine ⟨k, hk, ?_, ?_⟩
    · rw [hk] at hs
      obtain ⟨-, -, hcross⟩ := List.pairwise_append.1 hs
      intro hmem
      have := hcross k hmem k (by simp)
      omega
    · intro k1 hk1
      rw [hk] at hs hk1
      obtain ⟨-, -, hcross⟩ := List.pairwise_append.1 hs
      rcases List.mem_append.1 hk1 with h1 | h1
      · exact Nat.le_of_lt (hcross k1 h1 k (by simp))
      · simp only [List.mem_singleton] at h1
        rw [h1]

theorem recency_order_witness :
    ∃ t : Tracked ByteView,
      (Tracked.start 100 false).run 3 [Op.add "a" ⟨[1]⟩, Op.add "b" ⟨[2]⟩, Op.get "a"] = some t ∧
      keys t.cache = ["a", "b"] ∧ "a" ∈ keys t.cache.RemoveOldest := by
  have hs : ∃ t : Tracked ByteView,
      (Tracked.start 100 false).run 3 [Op.add "a" ⟨[1]⟩, Op.add "b" ⟨[2]⟩, Op.get "a"] = some t ∧
      keys t.cache = ["a", "b"] ∧ t.lastAccess "b" < t.lastAccess "a" :=
    ⟨_, rfl, by decide, by decide⟩
  obtain ⟨t, ht, hk, hlt⟩ := hs
  have h := recency_order 100 false 3 _ t ht
  exact ⟨t, ht, hk, (h.2.1 "a" "b" (by simp [hk]) (by simp [hk]) hlt).1⟩

end lru

/-! ## The eviction cache: `Get`, `Add` and `RemoveOldest` -/

namespace lru

open cacheFlex

variable {V : Type} [Value V]

theorem mmap_none_of_not_mem_keys {c : Cache V} (h : Inv c) {key : String} (hk : key ∉ keys c) :
    c.mmap key = none := by
  cases hm : c.mmap key with
  | none => rfl
  | some e =>
    obtain ⟨hmem, hkey⟩ := h.indexSound key e hm
    exact absurd (List.mem_map.2 ⟨e, hmem, hkey⟩) hk

theorem mem_resident_indexed {c : Cache V} (h : Inv c) {key : String} {v : V}
    (hk : (key, v) ∈ resident c) :
    ∃ e, c.mmap key = some e ∧ e ∈ c.ll ∧ c.heap e = ⟨key, v⟩ := by
  obtain ⟨e, he, hek⟩ := List.mem_map.1 hk
  simp only [Prod.mk.injEq] at hek
  refine ⟨e, hek.1 ▸ h.indexComplete e he, he, ?_⟩
  cases hce : c.heap e
  rw [hce] at hek
  simp only at hek
  rw [hek.1, hek.2]

theorem keys_nodup {c : Cache V} (h : Inv c) : (keys c).Nodup := by
  refine (List.nodup_map_iff_inj_on h.nodup).2 ?_
  intro a ha b hb hab
  have h1 := h.indexComplete a ha
  have h2 := h.indexComplete b hb
  rw [hab, h2] at h1
  exact (Option.some.inj h1).symm

omit [Value V] in
theorem resident_MoveToFront (c : Cache V) {ele : Nat} (hmem : ele ∈ c.ll) :
    resident { c with ll := list.MoveToFront c.ll ele } =
      ((c.heap ele).key, (c.heap ele).value) ::
        (c.ll.erase ele).map (fun e => ((c.heap e).key, (c.heap e).value)) := by
  simp [resident, MoveToFront_of_mem hmem]

omit [Value V] in
theorem resident_perm_erase (c : Cache V) {ele : Nat} (hmem : ele ∈ c.ll) :
    (resident c).Perm (((c.heap ele).key, (c.heap ele).value) ::
        (c.ll.erase ele).map (fun e => ((c.heap e).key, (c.heap e).value))) := by
  have := (List.perm_cons_erase hmem).map (fun e => ((c.heap e).key, (c.heap e).value))
  simpa [resident] using this

/-- Behaviour of `Get` on a consistent cache. -/
theorem Get_of_Inv {c : Cache V} (h : Inv c) (key : String) :
    (∀ v, (key, v) ∈ resident c →
      (c.Get key).1 = some v ∧ ∃ rest, resident (c.Get key).2 = (key, v) :: rest) ∧
    (key ∉ keys c → (c.Get key).1 = none ∧ (c.Get key).2 = c) ∧
    (resident (c.Get key).2).Perm (resident c) ∧
    (c.Get key).2.Len = c.Len ∧
    (c.Get key).2.currBytes = c.currBytes ∧
    (c.Get key).2.mmap = c.mmap := by
  refine ⟨?_, ?_, ?_, ?_, ?_, ?_⟩
  · intro v hv
    obtain ⟨e, hm, hmem, hh⟩ := mem_resident_indexed h hv
    simp only [Cache.Get, hm]
    refine ⟨by rw [hh], (c.ll.erase e).map (fun e => ((c.heap e).key, (c.heap e).value)), ?_⟩
    rw [resident_MoveToFront c hmem, hh]
  · intro hk
    simp [Cache.Get, mmap_none_of_not_mem_keys h hk]
  · cases hm : c.mmap key with
    | none => simp [Cache.Get, hm]
    | some e =>
      obtain ⟨hmem, -⟩ := h.indexSound key e hm
      simp only [Cache.Get, hm]
      rw [resident_MoveToFront c hmem]
      exact (resident_perm_erase c hmem).symm
  · cases hm : c.mmap key with
    | none => simp [Cache.Get, hm]
    | some e =>
      obtain ⟨hmem, -⟩ := h.indexSound key e hm
      have := List.length_pos_of_mem hmem
      simp only [Cache.Get, hm, Cache.Len, MoveToFront_of_mem hmem, List.length_cons,
        List.length_erase, hmem, if_true]
      omega
  · cases hm : c.mmap key <;> simp [Cache.Get, hm]
  · cases hm : c.mmap key <;> simp [Cache.Get, hm]

/-- C3 (`Get`): in every cache state, a `Get` of a resident key returns the value stored
for it and puts that entry first in the recency order; a `Get` of a key that is not
resident returns not-found and changes nothing at all. In both cases the resident
(key, value) pairs are the same up to order, and `Len()`, the running byte total and
the key index are unchanged. -/
theorem Get_spec [Inhabited V] (c : Cache V) (h : Reachable c) (key : String) :
    (∀ v, (key, v) ∈ resident c →
      (c.Get key).1 = some v ∧ ∃ rest, resident (c.Get key).2 = (key, v) :: rest) ∧
    (key ∉ keys c → (c.Get key).1 = none ∧ (c.Get key).2 = c) ∧
    (resident (c.Get key).2).Perm (resident c) ∧
    (c.Get key).2.Len = c.Len ∧
    (c.Get key).2.currBytes = c.currBytes ∧
    (c.Get key).2.mmap = c.mmap :=
  Get_of_Inv (Inv_of_Reachable h) key

theorem Get_spec_witness :
    ∃ c : Cache ByteView, Reachable c ∧ resident c = [("b", ⟨[2]⟩), ("a", ⟨[1]⟩)] ∧
      (c.Get "a").1 = some ⟨[1]⟩ ∧ (c.Get "zz").1 = none := by
  have hs : ∃ c : Cache ByteView,
      ((New 100 false).Add 3 "a" ⟨[1]⟩).bind (fun c1 => c1.Add 3 "b" ⟨[2]⟩) = some c ∧
      resident c = [("b", ⟨[2]⟩), ("a", ⟨[1]⟩)] := ⟨_, rfl, by decide⟩
  obtain ⟨c, hc, hres⟩ := hs
  obtain ⟨c1, h1, h2⟩ := Option.bind_eq_some.1 hc
  have hreach : Reachable c :=
    Reachable.add 3 "b" ⟨[2]⟩ (Reachable.add 3 "a" ⟨[1]⟩ (Reachable.new 100 false) h1) h2
  have h := Get_spec c hreach
  refine ⟨c, hreach, hres, ((h "a").1 ⟨[1]⟩ (by simp [hres])).1, ((h "zz").2.1 ?_).1⟩
  have hk : keys c = (resident c).map Prod.fst := by simp [keys, resident]
  rw [hk, hres]
  decide

end lru

/-! ## The eviction cache: `Add` -/

namespace lru

open cacheFlex

variable {V : Type} [Value V]

/-- After the insert-or-update step the entry of `key` is first in the list and holds
`value`; the other resident entries are those of before, in their order. -/
theorem addEntry_front {c : Cache V} (h : Inv c) (key : String) (value : V) :
    ∃ e rest, (c.addEntry key value).ll = e :: rest ∧
      (c.addEntry key value).heap e = ⟨key, value⟩ ∧
      (∀ a ∈ rest, (c.addEntry key value).heap a = c.heap a) ∧
      rest = (match c.mmap key with
        | some ele => c.ll.erase ele
        | none => c.ll) := by
  cases hm : c.mmap key with
  | some ele =>
    obtain ⟨hmem, hkey⟩ := h.indexSound key ele hm
    rw [addEntry_hit c key value ele hm]
    refine ⟨ele, c.ll.erase ele, MoveToFront_of_mem hmem, ?_, ?_, rfl⟩
    · simp [heapSet, ← hkey]
    · intro a ha
      have : a ≠ ele := ((h.nodup.mem_erase_iff).1 ha).1
      simp [heapSet, this]
  | none =>
    rw [addEntry_miss c key value hm]
    have hfresh : c.nextElem ∉ c.ll := fun hmem => Nat.lt_irrefl _ (h.fresh _ hmem)
    refine ⟨c.nextElem, c.ll, rfl, ?_, ?_, rfl⟩
    · simp [heapSet]
    · intro a ha
      have : a ≠ c.nextElem := fun h2 => hfresh (h2 ▸ ha)
      simp [heapSet, this]

/-- Lookup after the insert-or-update step. -/
theorem Get_addEntry {c : Cache V} (h : Inv c) (key : String) (value : V) (a : String) :
    ((c.addEntry key value).Get a).1 = if a = key then some value else (c.Get a).1 := by
  cases hm : c.mmap key with
  | some ele =>
    obtain ⟨hmem, hkey⟩ := h.indexSound key ele hm
    rw [addEntry_hit c key value ele hm]
    by_cases hak : a = key
    · subst hak
      simp [Cache.Get, hm, heapSet]
    · simp only [Cache.Get, hak, if_false]
      cases hma : c.mmap a with
      | none => rfl
      | some e =>
        have hne : e ≠ ele := by
          intro he
          subst he
          exact hak ((h.indexSound a e hma).2.symm.trans hkey)
        simp [heapSet, hne]
  | none =>
    rw [addEntry_miss c key value hm]
    have hfresh : c.nextElem ∉ c.ll := fun hmem => Nat.lt_irrefl _ (h.fresh _ hmem)
    by_cases hak : a = key
    · subst hak
      simp [Cache.Get, mapSet, heapSet]
    · simp only [Cache.Get, mapSet, hak, if_false]
      cases hma : c.mmap a with
      | none => rfl
      | some e =>
        have hne : e ≠ c.nextElem := fun he => hfresh (he ▸ (h.indexSound a e hma).1)
        simp [heapSet, hne]

/-- With one unit of fuel or more, the loop returns its argument when the condition
is false at entry. -/
theorem evictLoop_skip {c : Cache V} (fuel : Nat)
    (hc : ¬ (c.maxBytes ≠ 0 ∧ c.maxBytes < c.currBytes)) :
    Cache.evictLoop (fuel + 1) c = some c := by
  unfold Cache.evictLoop
  rw [if_neg hc]

/-- Update of a resident key, before the eviction loop. -/
theorem addEntry_existing {c : Cache V} (h : Inv c) {key : String} {old : V}
    (hres : (key, old) ∈ resident c) (value : V) :
    (∃ rest, resident (c.addEntry key value) = (key, value) :: rest ∧
      (resident c).Perm ((key, old) :: rest)) ∧
    (c.addEntry key value).currBytes
      = int64 (c.currBytes + (Value.Len value - Value.Len old)) ∧
    (c.addEntry key value).Len = c.Len := by
  obtain ⟨ele, hm, hmem, hh⟩ := mem_resident_indexed h hres
  obtain ⟨e, rest, hll, hhe, hrest, hr⟩ := addEntry_front h key value
  rw [hm] at hr
  simp only at hr
  subst hr
  refine ⟨⟨(c.ll.erase ele).map (fun a => ((c.heap a).key, (c.heap a).value)), ?_, ?_⟩, ?_, ?_⟩
  · simp only [resident, hll, List.map_cons, hhe]
    congr 1
    apply List.map_congr_left
    intro a ha
    rw [hrest a ha]
  · have := resident_perm_erase c hmem
    rw [hh] at this
    exact this
  · rw [addEntry_hit c key value ele hm, hh]
  · have := List.length_pos_of_mem hmem
    simp only [Cache.Len, hll, List.length_cons, List.length_erase, hmem, if_true]
    omega

/-- C4 (`Add` on an existing key): when key `k` is resident with value `old`, the
insert-or-update step of `Add(k, v)` replaces the value of `k` by `v` and puts the
entry first, keeps the other entries, changes the running byte total by exactly
`v.Len() - old.Len()` (the `int64` addition of the code: the exact result whenever that
lies in the `int64` range, and the key length is not counted again) and keeps the
number of entries; and if the new total is within the budget, `Add` returns that state
with nothing evicted, and `Get(k)` returns `v`. -/
theorem Add_existing_key [Inhabited V] (c : Cache V) (h : Reachable c) (key : String) (old : V)
    (hres : (key, old) ∈ resident c) (value : V) (fuel : Nat) :
    (∃ rest, resident (c.addEntry key value) = (key, value) :: rest ∧
      (resident c).Perm ((key, old) :: rest)) ∧
    (c.addEntry key value).currBytes
      = int64 (c.currBytes + (Value.Len value - Value.Len old)) ∧
    (MinInt64 ≤ c.currBytes + (Value.Len value - Value.Len old) →
      c.currBytes + (Value.Len value - Value.Len old) ≤ MaxInt64 →
      (c.addEntry key value).currBytes
        = c.currBytes + (Value.Len value - Value.Len old)) ∧
    (c.addEntry key value).Len = c.Len ∧
    ((c.addEntry key value).currBytes ≤ c.maxBytes →
      c.Add (fuel + 1) key value = some (c.addEntry key value) ∧
      ((c.addEntry key value).Get key).1 = some value) := by
  have hi := Inv_of_Reachable h
  obtain ⟨h1, h2, h3⟩ := addEntry_existing hi hres value
  refine ⟨h1, h2, fun hlo hhi => by rw [h2, int64_of_range hlo hhi], h3, ?_⟩
  intro hle
  constructor
  · apply evictLoop_skip
    rw [addEntry_maxBytes]
    omega
  · rw [Get_addEntry hi]
    simp

theorem Add_existing_key_witness :
    ∃ c : Cache ByteView, Reachable c ∧ resident c = [("b", ⟨[2]⟩), ("a", ⟨[1]⟩)] ∧
      c.Add 1 "a" ⟨[7, 8]⟩ = some (c.addEntry "a" ⟨[7, 8]⟩) ∧
      (c.addEntry "a" ⟨[7, 8]⟩).currBytes = c.currBytes + 1 := by
  have hs : ∃ c : Cache ByteView,
      ((New 100 false).Add 3 "a" ⟨[1]⟩).bind (fun c1 => c1.Add 3 "b" ⟨[2]⟩) = some c ∧
      resident c = [("b", ⟨[2]⟩), ("a", ⟨[1]⟩)] ∧
      (c.addEntry "a" ⟨[7, 8]⟩).currBytes ≤ c.maxBytes ∧
      MinInt64 ≤ c.currBytes +
        (Value.Len (⟨[7, 8]⟩ : ByteView) - Value.Len (⟨[1]⟩ : ByteView)) ∧
      c.currBytes + (Value.Len (⟨[7, 8]⟩ : ByteView) - Value.Len (⟨[1]⟩ : ByteView))
        ≤ MaxInt64 :=
    ⟨_, rfl, by decide, by decide, by decide, by decide⟩
  obtain ⟨c, hc, hres, hle, hlo, hhi⟩ := hs
  obtain ⟨c1, h1, h2⟩ := Option.bind_eq_some.1 hc
  have hreach : Reachable c :=
    Reachable.add 3 "b" ⟨[2]⟩ (Reachable.add 3 "a" ⟨[1]⟩ (Reachable.new 100 false) h1) h2
  have h := Add_existing_key c hreach "a" ⟨[1]⟩ (by simp [hres]) ⟨[7, 8]⟩ 0
  refine ⟨c, hreach, hres, (h.2.2.2.2 hle).1, ?_⟩
  have hd : Value.Len (⟨[7, 8]⟩ : ByteView) - Value.Len (⟨[1]⟩ : ByteView) = 1 := by decide
  have := h.2.2.1 hlo hhi
  rw [hd] at this
  exact this

end lru

/-! ## The eviction cache: oversized entries -/

namespace lru

open cacheFlex

variable {V : Type} [Value V]

theorem residentBytes_ge_head {c : Cache V} {e : Nat} {rest : List Nat} (hll : c.ll = e :: rest)
    (hnn : ∀ a ∈ rest, 0 ≤ Value.Len (c.heap a).value) :
    entrySize (c.heap e) ≤ residentBytes c := by
  have := sum_entrySize_nonneg c.heap rest hnn
  simp only [residentBytes, hll, List.map_cons, List.sum_cons]
  omega

/-- While the first entry alone exceeds the budget, no entry has a negative length and
the exact resident sum is at most `MaxInt64`, the loop can only stop on an empty list. -/
theorem evictLoop_oversized {fuel : Nat} {c c' : Cache V} (h : Inv c) (hne : c.maxBytes ≠ 0)
    (hnn : ∀ a ∈ c.ll, 0 ≤ Value.Len (c.heap a).value)
    (hsum : residentBytes c ≤ MaxInt64)
    (hbig : ∀ e rest, c.ll = e :: rest → c.maxBytes < entrySize (c.heap e))
    (hr : Cache.evictLoop fuel c = some c') : c'.ll = [] := by
  induction fuel generalizing c with
  | zero => simp [Cache.evictLoop] at hr
  | succ n ih =>
    unfold Cache.evictLoop at hr
    split at hr
    · rcases List.eq_nil_or_concat c.ll with hnil | ⟨ys, ele, hll⟩
      · rw [RemoveOldest_nil c hnil] at hr
        exact ih h hne hnn hsum hbig hr
      · rw [List.concat_eq_append] at hll
        obtain ⟨rll, -, -, rhp, -, rmx, -⟩ := RemoveOldest_snoc c ys ele hll h.nodup
        have hlast : 0 ≤ entrySize (c.heap ele) :=
          entrySize_nonneg _ (hnn ele (by rw [hll]; simp))
        apply ih (Inv_RemoveOldest h) (by rw [rmx]; exact hne) ?_ ?_ ?_ hr
        · intro a ha
          rw [rll] at ha
          rw [rhp]
          exact hnn a (by rw [hll]; simp [ha])
        · have : residentBytes c.RemoveOldest + entrySize (c.heap ele) = residentBytes c := by
            simp only [residentBytes, rll, rhp, hll, List.map_append, List.sum_append,
              List.map_cons, List.map_nil, List.sum_cons, List.sum_nil]
            omega
          omega
        · intro e rest hys
          rw [rll] at hys
          rw [rhp, rmx]
          exact hbig e (rest ++ [ele]) (by rw [hll, hys]; rfl)
    · rename_i hc
      cases hr
      cases hll : c'.ll with
      | nil => rfl
      | cons e rest =>
        exfalso
        have h1 := hbig e rest hll
        have h2 := residentBytes_ge_head hll
          (fun a ha => hnn a (by rw [hll]; exact List.mem_cons_of_mem _ ha))
        have h4 := entrySize_nonneg (c'.heap e) (hnn e (by rw [hll]; simp))
        have h3 : c'.currBytes = residentBytes c' := by
          rw [h.bytes]
          exact int64_of_range (by unfold MinInt64; omega) hsum
        apply hc
        constructor <;> omega

theorem residentBytes_of_nil {c : Cache V} (hll : c.ll = []) : residentBytes c = 0 := by
  simp [residentBytes, hll]

/-- C5 as stated fails, at two explicit inputs. First, on a cache built with
`maxBytes = 10`, `Add("a", v)` with `v.Len() == MaxInt64` is oversized, yet the `int64`
running total wraps to `MinInt64`, nothing is evicted and `Get("a")` finds the value.
Second, with the resident entry `("a", w)` where `w.Len() == -100`, `Add("b", v)` with
`v.Len() == 50` is oversized (51 > 10), yet the running total is -48, nothing is
evicted and `Get("b")` finds the value. -/
theorem Add_oversized_overflow :
    (∃ c : Cache Sized, (New 10 false : Cache Sized).Add 1 "a" ⟨MaxInt64⟩ = some c ∧
      (10 : Int) < keyLen "a" + Value.Len (⟨MaxInt64⟩ : Sized) ∧
      c.currBytes = MinInt64 ∧ c.Len = 1 ∧ (c.Get "a").1 = some ⟨MaxInt64⟩) ∧
    (∃ c : Cache Sized,
      ((New 10 false : Cache Sized).Add 1 "a" ⟨-100⟩).bind (fun c1 => c1.Add 1 "b" ⟨50⟩)
        = some c ∧
      (10 : Int) < keyLen "b" + Value.Len (⟨50⟩ : Sized) ∧
      c.currBytes = -48 ∧ c.Len = 2 ∧ (c.Get "b").1 = some ⟨50⟩) :=
  ⟨⟨_, rfl, by decide, by decide, by decide, by decide⟩,
    ⟨_, rfl, by decide, by decide, by decide, by decide⟩⟩

/-- C5, amended (oversized entry): with `maxBytes > 0` and `len(k) + v.Len() > maxBytes`,
when no entry resident after the insertion (the new one included) has a negative
`Len()` and the sum of `len(key) + value.Len()` over those entries is at most
`MaxInt64`, `Add(k, v)` returns (one unit of fuel per entry and two more are enough),
and whenever it returns the cache is empty: `Len() == 0`, the running total is 0, no
entry is resident, and `Get(k)` reports not-found. -/
theorem Add_oversized [Inhabited V] (c : Cache V) (h : Reachable c) (key : String) (value : V)
    (hpos : 0 < c.maxBytes) (hbig : c.maxBytes < keyLen key + Value.Len value)
    (hnn : ∀ p ∈ resident (c.addEntry key value), 0 ≤ Value.Len p.2)
    (hsum : residentBytes (c.addEntry key value) ≤ MaxInt64)
    (fuel : Nat) :
    (c.Len + 1 < fuel → ∃ c', c.Add fuel key value = some c') ∧
    (∀ c', c.Add fuel key value = some c' →
      c'.Len = 0 ∧ c'.currBytes = 0 ∧ resident c' = [] ∧ (c'.Get key).1 = none) := by
  have hi := Inv_of_Reachable h
  constructor
  · intro hf
    exact Add_terminates fuel hi (le_of_lt hpos) key value hf
  · intro c' hr
    have hi' := Inv_Add hi hr
    have hnil : c'.ll = [] := by
      apply evictLoop_oversized (Inv_addEntry hi key value)
        (by rw [addEntry_maxBytes]; omega) ?_ hsum ?_ hr
      · intro a ha
        exact hnn (((c.addEntry key value).heap a).key, ((c.addEntry key value).heap a).value)
          (List.mem_map.2 ⟨a, ha, rfl⟩)
      · intro e rest hll
        obtain ⟨e1, rest1, hll1, hhe, -, -⟩ := addEntry_front hi key value
        rw [hll1] at hll
        cases hll
        rw [hhe, addEntry_maxBytes]
        exact hbig
    refine ⟨by simp [Cache.Len, hnil], ?_, by simp [resident, hnil], ?_⟩
    · rw [hi'.bytes, residentBytes_of_nil hnil, int64_zero]
    · have : key ∉ keys c' := by simp [keys, hnil]
      simp [Cache.Get, mmap_none_of_not_mem_keys hi' this]

theorem Add_oversized_witness :
    ∃ c c' : Cache ByteView, Reachable c ∧ resident c = [("b", ⟨[2]⟩), ("a", ⟨[1]⟩)] ∧
      c.Add 4 "k" ⟨[1, 2, 3, 4, 5]⟩ = some c' ∧ c'.Len = 0 ∧ (c'.Get "k").1 = none := by
  have hs : ∃ c : Cache ByteView,
      ((New 5 false).Add 3 "a" ⟨[1]⟩).bind (fun c1 => c1.Add 3 "b" ⟨[2]⟩) = some c ∧
      resident c = [("b", ⟨[2]⟩), ("a", ⟨[1]⟩)] ∧ 0 < c.maxBytes ∧
      c.maxBytes < keyLen "k" + Value.Len (⟨[1, 2, 3, 4, 5]⟩ : ByteView) ∧
      c.Len + 1 < 4 ∧
      (∀ p ∈ resident (c.addEntry "k" ⟨[1, 2, 3, 4, 5]⟩), 0 ≤ Value.Len p.2) ∧
      residentBytes (c.addEntry "k" ⟨[1, 2, 3, 4, 5]⟩) ≤ MaxInt64 :=
    ⟨_, rfl, by decide, by decide, by decide, by decide, by decide, by decide⟩
  obtain ⟨c, hc, hres, hpos, hbig, hlen, hnn, hsum⟩ := hs
  obtain ⟨c1, h1, h2⟩ := Option.bind_eq_some.1 hc
  have hreach : Reachable c :=
    Reachable.add 3 "b" ⟨[2]⟩ (Reachable.add 3 "a" ⟨[1]⟩ (Reachable.new 5 false) h1) h2
  have h := Add_oversized c hreach "k" ⟨[1, 2, 3, 4, 5]⟩ hpos hbig hnn hsum 4
  obtain ⟨c', hc'⟩ := h.1 hlen
  have h3 := h.2 c' hc'
  exact ⟨c, c', hreach, hres, hc', h3.1, h3.2.2.2⟩

end lru

/-! ## The eviction cache: unbounded mode -/

namespace lru

open cacheFlex

variable {V : Type} [Value V]

theorem Inv_addEntries {c : Cache V} (h : Inv c) (ops : List (String × V)) :
    Inv (addEntries c ops) := by
  induction ops generalizing c with
  | nil => exact h
  | cons op rest ih => exact ih (Inv_addEntry h op.1 op.2)

theorem addEntries_maxBytes (c : Cache V) (ops : List (String × V)) :
    (addEntries c ops).maxBytes = c.maxBytes := by
  induction ops generalizing c with
  | nil => rfl
  | cons op rest ih =>
    simp only [addEntries, List.foldl_cons] at ih ⊢
    rw [ih, addEntry_maxBytes]

/-- With `maxBytes == 0` every `Add` is its insert-or-update step alone. -/
theorem addAll_unbounded {c : Cache V} (hmax : c.maxBytes = 0) (fuel : Nat)
    (ops : List (String × V)) :
    addAll (fuel + 1) c ops = some (addEntries c ops) := by
  induction ops generalizing c with
  | nil => rfl
  | cons op rest ih =>
    obtain ⟨k, v⟩ := op
    have h1 : c.Add (fuel + 1) k v = some (c.addEntry k v) := by
      apply evictLoop_skip
      rw [addEntry_maxBytes, hmax]
      simp
    simp only [addAll, h1, Option.some_bind]
    rw [ih (by rw [addEntry_maxBytes]; exact hmax)]
    rfl

omit [Value V] in
theorem latest_cons (k : String) (v : V) (rest : List (String × V)) (a : String) :
    latest ((k, v) :: rest) a =
      match latest rest a with
      | some w => some w
      | none => if a = k then some v else none := by
  simp only [latest, List.reverse_cons, List.find?_append]
  cases h : List.find? (fun p => decide (p.1 = a)) rest.reverse with
  | some p => simp
  | none =>
    by_cases hak : a = k
    · subst hak; simp
    · have : ¬ k = a := fun h2 => hak h2.symm
      simp [hak, this]

omit [Value V] in
theorem latest_isSome_iff (ops : List (String × V)) (a : String) :
    (latest ops a).isSome = true ↔ a ∈ ops.map Prod.fst := by
  induction ops with
  | nil => simp [latest]
  | cons op rest ih =>
    obtain ⟨k, v⟩ := op
    rw [latest_cons]
    cases h : latest rest a with
    | some w =>
      rw [h] at ih
      simp only [Option.isSome_some, true_iff] at ih
      simp [ih]
    | none =>
      rw [h] at ih
      simp only [Option.isSome_none, Bool.false_eq_true, false_iff] at ih
      by_cases hak : a = k
      · simp [hak]
      · simp only [hak, if_false, Option.isSome_none, Bool.false_eq_true, List.map_cons,
          List.mem_cons, false_or, false_iff]
        exact ih

theorem Get_addEntries {c : Cache V} (h : Inv c) (ops : List (String × V)) (a : String) :
    ((addEntries c ops).Get a).1 =
      match latest ops a with
      | some w => some w
      | none => (c.Get a).1 := by
  induction ops generalizing c with
  | nil => simp [addEntries, latest]
  | cons op rest ih =>
    obtain ⟨k, v⟩ := op
    have := ih (Inv_addEntry h k v)
    simp only [addEntries, List.foldl_cons] at this ⊢
    rw [this, latest_cons, Get_addEntry h]
    cases latest rest a with
    | some w => rfl
    | none =>
      by_cases hak : a = k <;> simp [hak]

theorem mem_keys_iff_Get {c : Cache V} (h : Inv c) (a : String) :
    a ∈ keys c ↔ (c.Get a).1.isSome = true := by
  constructor
  · exact Get_isSome_of_mem_keys h
  · intro hs
    by_contra hn
    rw [(Get_of_Inv h a).2.1 hn |>.1] at hs
    simp at hs

theorem Len_eq_card_keys {c : Cache V} (h : Inv c) : c.Len = (keys c).toFinset.card := by
  rw [List.toFinset_card_of_nodup (keys_nodup h)]
  simp [Cache.Len, keys]

/-- C6 (unbounded mode): on a cache built by `New` with `maxBytes == 0`, every sequence
of `Add` calls returns and no `Add` evicts (each is its insert-or-update step alone);
afterwards `Len()` is the number of distinct keys added, and `Get(k)` returns the value
of the latest `Add(k, .)`, which exists for every key that was added. -/
theorem unbounded_mode [Inhabited V] (onEvicted : Bool) (ops : List (String × V)) (fuel : Nat) :
    addAll (fuel + 1) (New 0 onEvicted) ops = some (addEntries (New 0 onEvicted) ops) ∧
    (addEntries (New 0 onEvicted) ops).Len = (ops.map Prod.fst).dedup.length ∧
    (∀ k, ((addEntries (New 0 onEvicted) ops).Get k).1 = latest ops k) ∧
    (∀ k ∈ ops.map Prod.fst, ∃ v, latest ops k = some v) := by
  have h0 : Inv (New 0 onEvicted : Cache V) := Inv_New 0 onEvicted
  have hget : ∀ k, ((addEntries (New 0 onEvicted : Cache V) ops).Get k).1 = latest ops k := by
    intro k
    rw [Get_addEntries h0]
    cases latest ops k with
    | some w => rfl
    | none => simp [Cache.Get, New]
  refine ⟨addAll_unbounded rfl fuel ops, ?_, hget, ?_⟩
  · rw [Len_eq_card_keys (Inv_addEntries h0 ops), ← List.card_toFinset]
    congr 1
    ext a
    simp only [List.mem_toFinset]
    rw [mem_keys_iff_Get (Inv_addEntries h0 ops), hget, latest_isSome_iff]
  · intro k hk
    exact Option.isSome_iff_exists.1 ((latest_isSome_iff ops k).2 hk)

end lru

namespace lru

open cacheFlex

theorem unbounded_mode_witness :
    addAll 1 (New 0 true : Cache ByteView) [("a", ⟨[1]⟩), ("b", ⟨[2]⟩), ("a", ⟨[3]⟩)]
      = some (addEntries (New 0 true) [("a", ⟨[1]⟩), ("b", ⟨[2]⟩), ("a", ⟨[3]⟩)]) ∧
    (addEntries (New 0 true : Cache ByteView) [("a", ⟨[1]⟩), ("b", ⟨[2]⟩), ("a", ⟨[3]⟩)]).Len = 2 ∧
    ((addEntries (New 0 true : Cache ByteView)
      [("a", ⟨[1]⟩), ("b", ⟨[2]⟩), ("a", ⟨[3]⟩)]).Get "a").1 = some ⟨[3]⟩ := by
  have h := unbounded_mode true [("a", (⟨[1]⟩ : ByteView)), ("b", ⟨[2]⟩), ("a", ⟨[3]⟩)] 0
  refine ⟨h.1, ?_, ?_⟩
  · rw [h.2.1]; decide
  · rw [h.2.2.1]; decide

end lru

/-! ## The eviction cache: `RemoveOldest` -/

namespace lru

open cacheFlex

variable {V : Type} [Value V]

/-- The callback trace of `RemoveOldest c` when the list ends in `ele`. -/
theorem RemoveOldest_evicted (c : Cache V) (ys : List Nat) (ele : Nat) (hll : c.ll = ys ++ [ele])
    (hnd : c.ll.Nodup) :
    c.RemoveOldest.evicted =
      if c.OnEvicted then
        c.evicted ++ [⟨(c.heap ele).key, (c.heap ele).value, ys, false,
          int64 (c.currBytes - entrySize (c.heap ele))⟩]
      else c.evicted := by
  have hback : list.Back c.ll = some ele := by
    rw [list.Back, hll]; exact List.getLast?_concat ys
  have hnot : ele ∉ ys := by
    rw [hll] at hnd
    intro hmem
    exact (List.nodup_append.1 hnd).2.2 hmem (by simp)
  have herase : list.Remove c.ll ele = ys := by
    rw [list.Remove, hll, List.erase_append_right _ hnot]
    simp
  unfold Cache.RemoveOldest
  rw [hback]
  simp only [herase, entrySize, int64_evict]
  split <;> simp [mapDelete]

/-- C7 (`RemoveOldest`): on an empty cache nothing changes and `OnEvicted` is not
called. On a non-empty cache exactly one entry goes, the last of the recency order:
it leaves the list and the key index (other keys keep their index entry), the running
byte total drops by exactly `len(key) + value.Len()` of that entry (the `int64`
subtraction of the code: the exact result whenever that lies in the `int64` range), and
when `OnEvicted` is set it is called exactly once, with that key and value, and sees a cache
that no longer lists or indexes the entry and whose total is already reduced; when
`OnEvicted` is not set there is no call. -/
theorem RemoveOldest_spec [Inhabited V] (c : Cache V) (h : Reachable c) :
    (c.ll = [] → c.RemoveOldest = c) ∧
    (c.ll ≠ [] → ∃ k v,
      resident c = resident c.RemoveOldest ++ [(k, v)] ∧
      c.RemoveOldest.Len + 1 = c.Len ∧
      k ∉ keys c.RemoveOldest ∧
      c.RemoveOldest.mmap k = none ∧
      (∀ k1, k1 ≠ k → c.RemoveOldest.mmap k1 = c.mmap k1) ∧
      c.RemoveOldest.currBytes = int64 (c.currBytes - (keyLen k + Value.Len v)) ∧
      (MinInt64 ≤ c.currBytes - (keyLen k + Value.Len v) →
        c.currBytes - (keyLen k + Value.Len v) ≤ MaxInt64 →
        c.RemoveOldest.currBytes = c.currBytes - (keyLen k + Value.Len v)) ∧
      (c.OnEvicted = true → c.RemoveOldest.evicted = c.evicted ++
        [⟨k, v, c.RemoveOldest.ll, false, c.RemoveOldest.currBytes⟩]) ∧
      (c.OnEvicted = false → c.RemoveOldest.evicted = c.evicted)) := by
  have hi := Inv_of_Reachable h
  refine ⟨RemoveOldest_nil c, ?_⟩
  intro hne
  rcases List.eq_nil_or_concat c.ll with hnil | ⟨ys, ele, hll⟩
  · exact absurd hnil hne
  · rw [List.concat_eq_append] at hll
    obtain ⟨rll, rmm, rcb, rhp, -, -, -⟩ := RemoveOldest_snoc c ys ele hll hi.nodup
    have rev := RemoveOldest_evicted c ys ele hll hi.nodup
    have hi' := Inv_RemoveOldest hi
    have hm : c.RemoveOldest.mmap (c.heap ele).key = none := by
      rw [rmm]; simp [mapDelete]
    refine ⟨(c.heap ele).key, (c.heap ele).value, ?_, ?_, ?_, hm, ?_, ?_, ?_, ?_, ?_⟩
    · simp [resident, rll, rhp, hll]
    · simp [Cache.Len, rll, hll]
    · intro hk
      obtain ⟨e, he, -, -⟩ := mem_keys_indexed hi' hk
      rw [hm] at he
      cases he
    · intro k1 hk1
      rw [rmm]; simp [mapDelete, hk1]
    · rw [rcb]; rfl
    · intro hlo hhi
      rw [rcb]
      exact int64_of_range hlo hhi
    · intro hon
      rw [rev, rll, rcb, if_pos hon]
    · intro hoff
      rw [rev, hoff]
      simp

theorem RemoveOldest_spec_witness :
    ∃ c : Cache ByteView, Reachable c ∧ resident c = [("b", ⟨[2]⟩), ("a", ⟨[1]⟩)] ∧
      resident c.RemoveOldest = [("b", ⟨[2]⟩)] ∧ c.RemoveOldest.currBytes = 2 ∧
      c.RemoveOldest.evicted.length = 1 := by
  have hs : ∃ c : Cache ByteView,
      ((New 100 true).Add 3 "a" ⟨[1]⟩).bind (fun c1 => c1.Add 3 "b" ⟨[2]⟩) = some c ∧
      resident c = [("b", ⟨[2]⟩), ("a", ⟨[1]⟩)] ∧ c.ll ≠ [] ∧ c.currBytes = 4 ∧
      c.OnEvicted = true ∧ c.evicted = [] :=
    ⟨_, rfl, by decide, by decide, by decide, by decide, rfl⟩
  obtain ⟨c, hc, hres, hne, hcb, hon, hev⟩ := hs
  obtain ⟨c1, h1, h2⟩ := Option.bind_eq_some.1 hc
  have hreach : Reachable c :=
    Reachable.add 3 "b" ⟨[2]⟩ (Reachable.add 3 "a" ⟨[1]⟩ (Reachable.new 100 true) h1) h2
  obtain ⟨k, v, hr, -, -, -, -, hb, -, he, -⟩ := (RemoveOldest_spec c hreach).2 hne
  rw [hres] at hr
  have hlen := congrArg List.length hr
  cases hrr : resident c.RemoveOldest with
  | nil => rw [hrr] at hlen; simp at hlen
  | cons p rest =>
    rw [hrr] at hr hlen
    cases rest with
    | nil =>
      simp only [List.cons_append, List.nil_append, List.cons.injEq, and_true] at hr
      obtain ⟨hp, hkv⟩ := hr
      have hk : k = "a" := (congrArg Prod.fst hkv).symm
      have hv : v = ⟨[1]⟩ := (congrArg Prod.snd hkv).symm
      refine ⟨c, hreach, hres, by rw [hp, hrr], ?_, ?_⟩
      · rw [hb, hcb, hk, hv]; decide
      · rw [he hon, hev]
        rfl
    | cons q rest2 => simp at hlen

end lru

/-! ## The Group: `Get` -/

namespace lru

variable {V : Type} [Value V]

/-- The loop never evicts a first entry that fits the budget on its own. -/
theorem evictLoop_keeps_front {fuel : Nat} {c c' : Cache V} (h : Inv c) {e : Nat}
    {rest : List Nat} (hll : c.ll = e :: rest)
    (hfit : c.maxBytes = 0 ∨ int64 (entrySize (c.heap e)) ≤ c.maxBytes)
    (hr : Cache.evictLoop fuel c = some c') :
    ∃ rest1, c'.ll = e :: rest1 ∧ c'.heap = c.heap := by
  induction fuel generalizing c rest with
  | zero => simp [Cache.evictLoop] at hr
  | succ n ih =>
    unfold Cache.evictLoop at hr
    split at hr
    · rename_i hc
      have hb := h.bytes
      rcases List.eq_nil_or_concat rest with hnil | ⟨ys, ele, hrest⟩
      · exfalso
        subst hnil
        simp only [residentBytes, hll, List.map_cons, List.map_nil, List.sum_cons,
          List.sum_nil, add_zero] at hb
        rw [← hb] at hfit
        omega
      · rw [List.concat_eq_append] at hrest
        have hll2 : c.ll = (e :: ys) ++ [ele] := by rw [hll, hrest]; rfl
        obtain ⟨rll, -, -, rhp, -, rmx, -⟩ := RemoveOldest_snoc c (e :: ys) ele hll2 h.nodup
        obtain ⟨rest1, h1, h2⟩ := ih (Inv_RemoveOldest h) rll (by rw [rmx, rhp]; exact hfit) hr
        exact ⟨rest1, h1, by rw [h2, rhp]⟩
    · cases hr
      exact ⟨rest, hll, rfl⟩

/-- An entry that fits the budget (or any entry when the budget is 0) can be read back
right after its `Add`. -/
theorem Get_after_Add {fuel : Nat} {c c' : Cache V} (h : Inv c) {key : String} {value : V}
    (hfit : c.maxBytes = 0 ∨ int64 (keyLen key + Value.Len value) ≤ c.maxBytes)
    (hr : c.Add fuel key value = some c') : (c'.Get key).1 = some value := by
  obtain ⟨e, rest, hll, hhe, -, -⟩ := addEntry_front h key value
  have hfit2 : (c.addEntry key value).maxBytes = 0 ∨
      int64 (entrySize ((c.addEntry key value).heap e)) ≤ (c.addEntry key value).maxBytes := by
    rw [addEntry_maxBytes, hhe]; exact hfit
  obtain ⟨rest1, h1, h2⟩ := evictLoop_keeps_front (Inv_addEntry h key value) hll hfit2 hr
  have hi' := Inv_Add h hr
  have hm := hi'.indexComplete e (by rw [h1]; simp)
  rw [h2, hhe] at hm
  simp only at hm
  simp [Cache.Get, hm, h2, hhe]

omit [Value V] in
theorem Get_maxBytes (c : Cache V) (key : String) : (c.Get key).2.maxBytes = c.maxBytes := by
  unfold Cache.Get
  split <;> rfl

omit [Value V] in
theorem Get_miss_state {c : Cache V} {key : String} (h : (c.Get key).1 = none) :
    (c.Get key).2 = c := by
  unfold Cache.Get at h ⊢
  split
  · rename_i hm; rw [hm] at h; simp at h
  · rfl

end lru

namespace cacheFlex

open lru

theorem Ok_fresh (cacheBytes : Int) : cache.Ok ⟨cacheBytes, none⟩ := by
  intro l hl; cases hl

theorem Ok_add {fuel : Nat} {c c1 : cache} {key : String} {value : ByteView} (h : c.Ok)
    (hr : c.add fuel key value = some c1) : c1.Ok ∧ c1.cacheBytes = c.cacheBytes := by
  unfold cache.add at hr
  simp only [Option.map_eq_some'] at hr
  obtain ⟨l1, hl1, rfl⟩ := hr
  refine ⟨?_, rfl⟩
  intro l hl
  simp only [Option.some.injEq] at hl
  subst hl
  cases hlru : c.lru with
  | none =>
    rw [hlru] at hl1
    exact ⟨Inv_Add (Inv_New _ _) hl1, by rw [Add_maxBytes hl1]; rfl⟩
  | some l0 =>
    rw [hlru] at hl1
    obtain ⟨hi, hm⟩ := h l0 hlru
    exact ⟨Inv_Add hi hl1, by rw [Add_maxBytes hl1]; exact hm⟩

theorem Ok_get {c : cache} (h : c.Ok) (key : String) :
    (c.get key).2.Ok ∧ (c.get key).2.cacheBytes = c.cacheBytes := by
  unfold cache.get
  cases hlru : c.lru with
  | none => exact ⟨(by intro l hl; rw [hlru] at hl; cases hl), rfl⟩
  | some l0 =>
    obtain ⟨hi, hm⟩ := h l0 hlru
    refine ⟨?_, rfl⟩
    intro l hl
    simp only [Option.some.injEq] at hl
    subst hl
    exact ⟨Inv_Get hi key, by rw [Get_maxBytes]; exact hm⟩

theorem Ok_of_Reachable {c : cache} (h : cache.Reachable c) : c.Ok := by
  induction h with
  | fresh b => exact Ok_fresh b
  | add fuel key value _ hr ih => exact (Ok_add ih hr).1
  | get key _ ih => exact (Ok_get ih key).1

theorem cache_get_miss_state {c : cache} {key : String} (h : (c.get key).1 = none) :
    (c.get key).2 = c := by
  unfold cache.get at h ⊢
  cases hlru : c.lru with
  | none => rfl
  | some l =>
    rw [hlru] at h
    simp only at h ⊢
    rw [Get_miss_state h]
    cases c
    simp only at hlru
    rw [hlru]

/-- With a non-negative budget `add` returns, given one unit of fuel per entry and two
more. -/
theorem cache_add_terminates {c : cache} (h : c.Ok) (hb : 0 ≤ c.cacheBytes) (fuel : Nat)
    (key : String) (value : ByteView) (hf : c.entries + 1 < fuel) :
    ∃ c1, c.add fuel key value = some c1 := by
  unfold cache.add
  cases hlru : c.lru with
  | none =>
    obtain ⟨l1, hl1⟩ := Add_terminates fuel (Inv_New c.cacheBytes false) hb key value
      (by simp [New]; simp [cache.entries, hlru] at hf; omega)
    refine ⟨{ c with lru := some l1 }, ?_⟩
    simp only [hl1, Option.map_some']
  | some l0 =>
    obtain ⟨hi, hm⟩ := h l0 hlru
    obtain ⟨l1, hl1⟩ := Add_terminates fuel hi (by rw [hm]; exact hb) key value
      (by simpa [cache.entries, hlru, Cache.Len] using hf)
    refine ⟨{ c with lru := some l1 }, ?_⟩
    simp only [hl1, Option.map_some']

/-- A value that fits the budget (or any value when the budget is 0) is found by `get`
right after its `add`. -/
theorem cache_get_after_add {fuel : Nat} {c c1 : cache} (h : c.Ok) {key : String}
    {value : ByteView}
    (hfit : c.cacheBytes = 0 ∨ keyLen key + (value.Len : Int) ≤ c.cacheBytes)
    (hr : c.add fuel key value = some c1) : (c1.get key).1 = some value := by
  have hfit2 : c.cacheBytes = 0 ∨
      lru.int64 (keyLen key + lru.Value.Len value) ≤ c.cacheBytes := by
    rcases hfit with h0 | h1
    · exact Or.inl h0
    · refine Or.inr (lru.int64_le_of_le ?_ h1)
      have hk := lru.keyLen_nonneg key
      have hv : (0 : Int) ≤ lru.Value.Len value := Int.ofNat_nonneg _
      unfold lru.MinInt64
      omega
  unfold cache.add at hr
  simp only [Option.map_eq_some'] at hr
  obtain ⟨l1, hl1, rfl⟩ := hr
  simp only [cache.get]
  cases hlru : c.lru with
  | none =>
    rw [hlru] at hl1
    exact Get_after_Add (Inv_New _ _) hfit2 hl1
  | some l0 =>
    rw [hlru] at hl1
    obtain ⟨hi, hm⟩ := h l0 hlru
    exact Get_after_Add hi (by rw [hm]; exact hfit2) hl1

theorem loaderCalls_append (t u : List Event) :
    loaderCalls (t ++ u) = loaderCalls t + loaderCalls u := by
  simp [loaderCalls]

theorem peerCalls_append (t u : List Event) :
    peerCalls (t ++ u) = peerCalls t + peerCalls u := by
  simp [peerCalls]

end cacheFlex

/-! ## The Group: claims -/

namespace cacheFlex

open lru

/-- C8 (`Group.Get` rejects the empty key): for every Group, `Get("")` returns the
error "key is required" with the empty ByteView, and the Group is left exactly as it
was: nothing is added to the trace (no loader call, no peer pick, no remote fetch) and
the local cache is unchanged. -/
theorem Group_Get_empty_key (fuel : Nat) (g : Group) :
    Group.Get fuel g "" = some ((⟨[]⟩, some "key is required"), g) ∧
    ∀ r, Group.Get fuel g "" = some r →
      r.1.2 ≠ none ∧ r.1.1.Len = 0 ∧ loaderCalls r.2.trace = loaderCalls g.trace ∧
      peerCalls r.2.trace = peerCalls g.trace ∧ r.2.mainCache = g.mainCache := by
  have h : Group.Get fuel g "" = some ((⟨[]⟩, some "key is required"), g) := by
    simp [Group.Get]
  refine ⟨h, ?_⟩
  intro r hr
  rw [h] at hr
  cases hr
  simp [ByteView.Len]

/-- The local load when the loader succeeds. -/
theorem getLocally_ok (fuel : Nat) (g : Group) (key : String) (b : List UInt8)
    (hload : g.getter key = (b, none)) :
    Group.getLocally fuel g key =
      (g.mainCache.add fuel key ⟨b⟩).map (fun m =>
        ((⟨b⟩, none), { g with mainCache := m, trace := g.trace ++ [Event.loaderCall key] })) := by
  simp only [Group.getLocally, hload, Group.populateCache, cloneBytes, Option.map_map]
  rfl

/-- The local load when the loader fails. -/
theorem getLocally_err (fuel : Nat) (g : Group) (key : String) (b : List UInt8) (err : String)
    (hload : g.getter key = (b, some err)) :
    Group.getLocally fuel g key =
      some ((⟨[]⟩, some err), { g with trace := g.trace ++ [Event.loaderCall key] }) := by
  simp only [Group.getLocally, hload]

/-- A `Get` that misses the cache continues with `load` on the same Group. -/
theorem Get_miss {fuel : Nat} {g : Group} {key : String} (hk : key ≠ "")
    (hmiss : (g.mainCache.get key).1 = none) :
    Group.Get fuel g key = Group.load fuel g key := by
  simp only [Group.Get, hk, if_false, hmiss, cache_get_miss_state hmiss]

/-- A `Get` that hits the cache returns the cached view and logs the hit. -/
theorem Get_hit {fuel : Nat} {g : Group} {key : String} {v : ByteView} (hk : key ≠ "")
    (hhit : (g.mainCache.get key).1 = some v) :
    Group.Get fuel g key =
      some ((v, none),
        { g with mainCache := (g.mainCache.get key).2, trace := g.trace ++ [Event.logHit] }) := by
  simp only [Group.Get, hk, if_false, hhit]

/-- Without a usable peer `load` is the local load, after the pick if a picker is
registered. -/
theorem load_no_peer {fuel : Nat} {g : Group} {key : String}
    (hpeer : ∀ p, g.peers = some p → p key = none) :
    Group.load fuel g key =
      Group.getLocally fuel
        { g with trace := g.trace ++ (if g.peers.isSome then [Event.pickPeer key] else []) }
        key := by
  obtain ⟨name, getter, mc, peers, trace⟩ := g
  unfold Group.load
  cases peers with
  | none => simp
  | some p => simp [hpeer p rfl]

/-- C9 (load-once caching): take a Group with no usable peer (no picker, or the picker
returns no peer for `k`), a non-empty key `k` that the local cache does not hold, and
a loader that returns bytes `b` for `k`, where `len(k) + len(b)` fits the byte budget
or the budget is 0. Then the first `Get(k)` returns (one unit of fuel per cached entry
and two more are enough), invokes the loader exactly once and returns a ByteView with
contents `b` and `Len() == len(b)`; and the `Get(k)` that follows returns the same
contents without invoking the loader. -/
theorem Group_load_once (g : Group) (hreach : cache.Reachable g.mainCache) (k : String)
    (hk : k ≠ "") (b : List UInt8) (hload : g.getter k = (b, none))
    (hpeer : ∀ p, g.peers = some p → p k = none)
    (hmiss : (g.mainCache.get k).1 = none)
    (hfit : g.mainCache.cacheBytes = 0 ∨ keyLen k + (b.length : Int) ≤ g.mainCache.cacheBytes)
    (fuel : Nat) (hf : g.mainCache.entries + 1 < fuel) :
    ∃ g1 g2,
      Group.Get fuel g k = some ((⟨b⟩, none), g1) ∧
      (⟨b⟩ : ByteView).Len = b.length ∧
      loaderCalls g1.trace = loaderCalls g.trace + 1 ∧
      Group.Get fuel g1 k = some ((⟨b⟩, none), g2) ∧
      loaderCalls g2.trace = loaderCalls g1.trace := by
  have hok := Ok_of_Reachable hreach
  have hb : 0 ≤ g.mainCache.cacheBytes := by
    rcases hfit with h0 | h1
    · omega
    · have : 0 ≤ keyLen k := by unfold keyLen; positivity
      omega
  obtain ⟨m, hm⟩ := cache_add_terminates hok hb fuel k ⟨b⟩ hf
  have hget := cache_get_after_add hok hfit hm
  have h1 : Group.Get fuel g k = some ((⟨b⟩, none),
      { g with
        mainCache := m
        trace := (g.trace ++ (if g.peers.isSome then [Event.pickPeer k] else []))
          ++ [Event.loaderCall k] }) := by
    rw [Get_miss hk hmiss, load_no_peer hpeer,
      getLocally_ok fuel { g with trace := g.trace ++
        (if g.peers.isSome then [Event.pickPeer k] else []) } k b hload]
    simp only [hm, Option.map_some']
  refine ⟨_, _, h1, rfl, ?_, Get_hit hk hget, ?_⟩
  · simp only [loaderCalls_append]
    cases g.peers <;> simp [loaderCalls]
  · simp only [loaderCalls_append]
    simp [loaderCalls]

theorem Group_load_once_witness :
    ∃ g1 g2 : Group,
      Group.Get 2 ⟨"scores", fun k => if k = "Tom" then ([51, 51, 48], none)
        else ([], some "not exist"), ⟨2048, none⟩, none, []⟩ "Tom"
        = some ((⟨[51, 51, 48]⟩, none), g1) ∧
      g1.trace = [Event.loaderCall "Tom"] ∧
      Group.Get 2 g1 "Tom" = some ((⟨[51, 51, 48]⟩, none), g2) ∧
      loaderCalls g2.trace = 1 := by
  obtain ⟨g1, g2, h1, -, h2, h3, h4⟩ := Group_load_once
    ⟨"scores", fun k => if k = "Tom" then ([51, 51, 48], none) else ([], some "not exist"),
      ⟨2048, none⟩, none, []⟩
    (cache.Reachable.fresh 2048) "Tom" (by decide) [51, 51, 48] (by simp)
    (by intro p hp; cases hp) rfl (Or.inr (by decide)) 2 (by decide)
  have h5 : Group.Get 2 ⟨"scores", fun k => if k = "Tom" then ([51, 51, 48], none)
      else ([], some "not exist"), ⟨2048, none⟩, none, []⟩ "Tom" = some ((⟨[51, 51, 48]⟩, none),
        ⟨"scores", fun k => if k = "Tom" then ([51, 51, 48], none)
          else ([], some "not exist"),
          ⟨2048, (lru.New 2048 false).Add 2 "Tom" ⟨[51, 51, 48]⟩⟩, none,
          [Event.loaderCall "Tom"]⟩) := by
    rfl
  rw [h5] at h1
  simp only [Option.some.injEq, Prod.mk.injEq, true_and] at h1
  subst h1
  exact ⟨_, g2, h5, rfl, h3, by rw [h4, h2]; rfl⟩

end cacheFlex

/-! ## The Group: fallback to the local load -/

namespace cacheFlex

open lru

/-- When the picked peer fails, `load` logs the failure and is the local load. -/
theorem load_peer_failed (fuel : Nat) (g : Group) (key : String) (picker : PeerPicker)
    (peer : PeerGetter) (bytes : List UInt8) (err : String)
    (hp : g.peers = some picker) (hpick : picker key = some peer)
    (hfail : peer g.name key = (bytes, some err)) :
    Group.load fuel g key =
      Group.getLocally fuel
        { g with trace := g.trace ++
          [Event.pickPeer key, Event.peerGet g.name key, Event.logPeerFailure err] } key := by
  obtain ⟨name, getter, mc, peers, trace⟩ := g
  simp only at hp hfail
  subst hp
  simp [Group.load, hpick, Group.getFromPeer, hfail]

end cacheFlex

/-! ## The eviction cache: entries that fit, termination, and the invariants -/

namespace lru

open cacheFlex

variable {V : Type} [Value V]

theorem resident_RemoveOldest {c : Cache V} (h : Inv c) :
    ∃ removed, resident c = resident c.RemoveOldest ++ removed := by
  rcases List.eq_nil_or_concat c.ll with hnil | ⟨ys, ele, hll⟩
  · exact ⟨[], by rw [RemoveOldest_nil c hnil]; simp⟩
  · rw [List.concat_eq_append] at hll
    obtain ⟨rll, -, -, rhp, -, -, -⟩ := RemoveOldest_snoc c ys ele hll h.nodup
    exact ⟨[((c.heap ele).key, (c.heap ele).value)], by simp [resident, rll, rhp, hll]⟩

/-- The loop removes entries from the end of the recency order only. -/
theorem resident_evictLoop {fuel : Nat} {c c' : Cache V} (h : Inv c)
    (hr : Cache.evictLoop fuel c = some c') :
    ∃ removed, resident c = resident c' ++ removed := by
  induction fuel generalizing c with
  | zero => simp [Cache.evictLoop] at hr
  | succ n ih =>
    unfold Cache.evictLoop at hr
    split at hr
    · obtain ⟨r1, h1⟩ := ih (Inv_RemoveOldest h) hr
      obtain ⟨r2, h2⟩ := resident_RemoveOldest h
      exact ⟨r1 ++ r2, by rw [h2, h1, List.append_assoc]⟩
    · cases hr; exact ⟨[], by simp⟩

omit [Value V] in
theorem keys_eq_map_resident (c : Cache V) : keys c = (resident c).map Prod.fst := by
  simp [keys, resident]

/-- C16 (fits implies retrievable): on every reachable cache with `maxBytes > 0`, for a
key and value with `len(k) + v.Len() <= maxBytes` (`v.Len()` being a Go `int`, so not
below `MinInt64`), `Add(k, v)` returns (one unit of
fuel per entry and two more are enough); afterwards the entry `(k, v)` is resident,
first in the recency order, and `Get(k)` returns `v`; the entries the eviction loop
removed come from the end of the order and none of them has key `k`. -/
theorem Add_fits_retrievable [Inhabited V] (c : Cache V) (h : Reachable c) (key : String)
    (value : V) (hpos : 0 < c.maxBytes)
    (hfit : keyLen key + Value.Len value ≤ c.maxBytes)
    (hlen : MinInt64 ≤ Value.Len value) (fuel : Nat) :
    (c.Len + 1 < fuel → ∃ c', c.Add fuel key value = some c') ∧
    (∀ c', c.Add fuel key value = some c' →
      (key, value) ∈ resident c' ∧
      (resident c').head? = some (key, value) ∧
      (c'.Get key).1 = some value ∧
      ∃ removed, resident (c.addEntry key value) = resident c' ++ removed ∧
        ∀ p ∈ removed, p.1 ≠ key) := by
  have hi := Inv_of_Reachable h
  refine ⟨fun hf => Add_terminates fuel hi (le_of_lt hpos) key value hf, ?_⟩
  intro c' hr
  have hi1 := Inv_addEntry hi key value
  obtain ⟨e, rest, hll, hhe, -, -⟩ := addEntry_front hi key value
  have hfit1 : int64 (keyLen key + Value.Len value) ≤ c.maxBytes := by
    refine int64_le_of_le ?_ hfit
    have hk := keyLen_nonneg key
    omega
  have hfit2 : (c.addEntry key value).maxBytes = 0 ∨
      int64 (entrySize ((c.addEntry key value).heap e)) ≤
        (c.addEntry key value).maxBytes := by
    rw [addEntry_maxBytes, hhe]; exact Or.inr hfit1
  obtain ⟨rest1, h1, h2⟩ := evictLoop_keeps_front hi1 hll hfit2 hr
  have hhead : (resident c').head? = some (key, value) := by
    simp [resident, h1, h2, hhe]
  have hmem : (key, value) ∈ resident c' := List.mem_of_mem_head? hhead
  obtain ⟨removed, hrem⟩ := resident_evictLoop hi1 hr
  refine ⟨hmem, hhead, Get_after_Add hi (Or.inr hfit1) hr, removed, hrem, ?_⟩
  intro p hp hpk
  have hnd := keys_nodup hi1
  rw [keys_eq_map_resident, hrem, List.map_append] at hnd
  have hdis := (List.nodup_append.1 hnd).2.2
  exact hdis (List.mem_map.2 ⟨(key, value), hmem, rfl⟩) (List.mem_map.2 ⟨p, hp, hpk⟩)

theorem Add_fits_retrievable_witness :
    ∃ c c' : Cache ByteView, Reachable c ∧ resident c = [("b", ⟨[2]⟩), ("a", ⟨[1]⟩)] ∧
      c.Add 4 "k" ⟨[1, 2, 3]⟩ = some c' ∧ (c'.Get "k").1 = some ⟨[1, 2, 3]⟩ := by
  have hs : ∃ c : Cache ByteView,
      ((New 5 false).Add 3 "a" ⟨[1]⟩).bind (fun c1 => c1.Add 3 "b" ⟨[2]⟩) = some c ∧
      resident c = [("b", ⟨[2]⟩), ("a", ⟨[1]⟩)] ∧ 0 < c.maxBytes ∧
      keyLen "k" + Value.Len (⟨[1, 2, 3]⟩ : ByteView) ≤ c.maxBytes ∧
      c.Len + 1 < 4 :=
    ⟨_, rfl, by decide, by decide, by decide, by decide⟩
  obtain ⟨c, hc, hres, hpos, hfit, hlen⟩ := hs
  obtain ⟨c1, h1, h2⟩ := Option.bind_eq_some.1 hc
  have hreach : Reachable c :=
    Reachable.add 3 "b" ⟨[2]⟩ (Reachable.add 3 "a" ⟨[1]⟩ (Reachable.new 5 false) h1) h2
  have h := Add_fits_retrievable c hreach "k" ⟨[1, 2, 3]⟩ hpos hfit (by decide) 4
  obtain ⟨c', hc'⟩ := h.1 hlen
  exact ⟨c, c', hreach, hres, hc', (h.2 c' hc').2.2.1⟩

/-- C17, at a failing input: on a cache built with `maxBytes = -1`, `Add("a", v)` does
not return, whatever the fuel. After the only entry is evicted the running total is 0,
still above the budget, and `RemoveOldest` on the empty list changes nothing, so the
loop condition stays true. -/
theorem Add_negative_budget (fuel : Nat) :
    (New (-1) false : Cache ByteView).Add fuel "a" ⟨[1]⟩ = none := by
  cases fuel with
  | zero => rfl
  | succ n =>
    have h : ((New (-1) false : Cache ByteView).addEntry "a" ⟨[1]⟩).RemoveOldest.ll = [] ∧
        ((New (-1) false : Cache ByteView).addEntry "a" ⟨[1]⟩).RemoveOldest.maxBytes ≠ 0 ∧
        ((New (-1) false : Cache ByteView).addEntry "a" ⟨[1]⟩).RemoveOldest.maxBytes <
          ((New (-1) false : Cache ByteView).addEntry "a" ⟨[1]⟩).RemoveOldest.currBytes := by
      decide
    have hc : ((New (-1) false : Cache ByteView).addEntry "a" ⟨[1]⟩).maxBytes ≠ 0 ∧
        ((New (-1) false : Cache ByteView).addEntry "a" ⟨[1]⟩).maxBytes <
          ((New (-1) false : Cache ByteView).addEntry "a" ⟨[1]⟩).currBytes := by
      decide
    unfold Cache.Add Cache.evictLoop
    rw [if_pos hc]
    exact evictLoop_empty n h.1 h.2

/-- C19 as stated fails, at an explicit input: on a cache built by `New` with
`maxBytes = 10`, after `Add("a", v)` with the non-negative `v.Len() == MaxInt64` the
`int64` field `currBytes` has wrapped to `MinInt64`: it is negative, and it is not the sum
of `len(key) + value.Len()` over the resident entries, which is `2^63`. -/
theorem byte_accounting_overflow :
    ∃ c : Cache Sized, Reachable c ∧ resident c = [("a", ⟨MaxInt64⟩)] ∧
      (∀ p ∈ resident c, 0 ≤ Value.Len p.2) ∧
      c.currBytes = MinInt64 ∧ residentBytes c = 9223372036854775808 ∧
      c.currBytes ≠ residentBytes c ∧ c.currBytes < 0 := by
  have hs : ∃ c : Cache Sized, (New 10 false).Add 1 "a" ⟨MaxInt64⟩ = some c ∧
      resident c = [("a", ⟨MaxInt64⟩)] ∧ (∀ p ∈ resident c, 0 ≤ Value.Len p.2) ∧
      c.currBytes = MinInt64 ∧ residentBytes c = 9223372036854775808 ∧
      c.currBytes ≠ residentBytes c ∧ c.currBytes < 0 :=
    ⟨_, rfl, by decide, by decide, by decide, by decide, by decide, by decide⟩
  obtain ⟨c, hc, hrest⟩ := hs
  exact ⟨c, Reachable.add 1 "a" ⟨MaxInt64⟩ (Reachable.new 10 false) hc, hrest⟩

/-- C19, amended (byte accounting): in every state reached from `New` by `Add`, `Get`
and `RemoveOldest` calls, `currBytes` is the `int64` conversion of the sum of
`len(key) + value.Len()` over the resident entries; whenever that sum lies in the `int64`
range, `currBytes` equals it and so is 0 exactly when the sum is 0; and when moreover the
resident values have a non-negative `Len()`, `currBytes` is not negative. -/
theorem byte_accounting [Inhabited V] (c : Cache V) (h : Reachable c) :
    c.currBytes = int64 (residentBytes c) ∧
    (MinInt64 ≤ residentBytes c → residentBytes c ≤ MaxInt64 →
      c.currBytes = residentBytes c ∧ (c.currBytes = 0 ↔ residentBytes c = 0)) ∧
    ((∀ p ∈ resident c, 0 ≤ Value.Len p.2) → residentBytes c ≤ MaxInt64 →
      c.currBytes = residentBytes c ∧ (c.currBytes = 0 ↔ residentBytes c = 0) ∧
      0 ≤ c.currBytes) := by
  have hb := (Inv_of_Reachable h).bytes
  refine ⟨hb, ?_, ?_⟩
  · intro hlo hhi
    have he : c.currBytes = residentBytes c := by rw [hb]; exact int64_of_range hlo hhi
    exact ⟨he, by rw [he]⟩
  · intro hnn hhi
    have h0 : 0 ≤ residentBytes c := residentBytes_nonneg c hnn
    have he : c.currBytes = residentBytes c := by
      rw [hb]
      refine int64_of_range ?_ hhi
      unfold MinInt64
      omega
    exact ⟨he, by rw [he], by omega⟩

theorem byte_accounting_witness :
    ∃ c : Cache ByteView, Reachable c ∧ resident c = [("b", ⟨[2]⟩), ("a", ⟨[1]⟩)] ∧
      c.currBytes = residentBytes c ∧ c.currBytes = 4 ∧ 0 ≤ c.currBytes := by
  have hs : ∃ c : Cache ByteView,
      ((New 100 false).Add 3 "a" ⟨[1]⟩).bind (fun c1 => c1.Add 3 "b" ⟨[2]⟩) = some c ∧
      resident c = [("b", ⟨[2]⟩), ("a", ⟨[1]⟩)] ∧ c.currBytes = 4 ∧
      (∀ p ∈ resident c, 0 ≤ Value.Len p.2) ∧ residentBytes c ≤ MaxInt64 :=
    ⟨_, rfl, by decide, by decide, by decide, by decide⟩
  obtain ⟨c, hc, hres, hcb, hnn, hhi⟩ := hs
  obtain ⟨c1, h1, h2⟩ := Option.bind_eq_some.1 hc
  have hreach : Reachable c :=
    Reachable.add 3 "b" ⟨[2]⟩ (Reachable.add 3 "a" ⟨[1]⟩ (Reachable.new 100 false) h1) h2
  have h := (byte_accounting c hreach).2.2 hnn hhi
  exact ⟨c, hreach, hres, h.1, hcb, h.2.2⟩

/-- C20 (index and ordering consistency): in every state reached from `New` by `Add`,
`Get` and `RemoveOldest` calls, every key of the index maps to a list element, that
element holds the key and is the only list element that does; the key of every list
element is indexed to that element; no element and no key occurs twice in the list; and
`Len()` is the number of distinct resident keys. -/
theorem index_consistency [Inhabited V] (c : Cache V) (h : Reachable c) :
    (∀ k e, c.mmap k = some e →
      e ∈ c.ll ∧ (c.heap e).key = k ∧ ∀ e1 ∈ c.ll, (c.heap e1).key = k → e1 = e) ∧
    (∀ e ∈ c.ll, c.mmap (c.heap e).key = some e) ∧
    c.ll.Nodup ∧ (keys c).Nodup ∧
    c.Len = (keys c).dedup.length := by
  have hi := Inv_of_Reachable h
  refine ⟨?_, hi.indexComplete, hi.nodup, keys_nodup hi, ?_⟩
  · intro k e hk
    obtain ⟨hmem, hkey⟩ := hi.indexSound k e hk
    refine ⟨hmem, hkey, ?_⟩
    intro e1 he1 hk1
    have := hi.indexComplete e1 he1
    rw [hk1, hk] at this
    exact (Option.some.inj this).symm
  · rw [(keys_nodup hi).dedup]
    simp [Cache.Len, keys]

theorem index_consistency_witness :
    ∃ c : Cache ByteView, Reachable c ∧ keys c = ["b", "a"] ∧ c.Len = 2 ∧
      (keys c).dedup.length = 2 := by
  have hs : ∃ c : Cache ByteView,
      (((New 100 false).Add 3 "a" ⟨[1]⟩).bind (fun c1 => c1.Add 3 "b" ⟨[2]⟩)).bind
        (fun c2 => c2.Add 3 "a" ⟨[5]⟩) = some c ∧
      keys (c.Get "b").2 = ["b", "a"] ∧ (c.Get "b").2.Len = 2 :=
    ⟨_, rfl, by decide, by decide⟩
  obtain ⟨c, hc, hk, hl⟩ := hs
  obtain ⟨c2, h12, h3⟩ := Option.bind_eq_some.1 hc
  obtain ⟨c1, h1, h2⟩ := Option.bind_eq_some.1 h12
  have hreach : Reachable (c.Get "b").2 :=
    Reachable.get "b" (Reachable.add 3 "a" ⟨[5]⟩
      (Reachable.add 3 "b" ⟨[2]⟩ (Reachable.add 3 "a" ⟨[1]⟩ (Reachable.new 100 false) h1) h2) h3)
  have h := index_consistency (c.Get "b").2 hreach
  exact ⟨(c.Get "b").2, hreach, hk, hl, by rw [← h.2.2.2.2, hl]⟩

end lru

/-! ## The Group: remote hits, loader failures and `RegisterPeers` -/

namespace cacheFlex

open lru

theorem remoteFetches_append (t u : List Event) :
    remoteFetches (t ++ u) = remoteFetches t + remoteFetches u := by
  simp [remoteFetches]

theorem peerPicks_append (t u : List Event) :
    peerPicks (t ++ u) = peerPicks t + peerPicks u := by
  simp [peerPicks]

/-- When the picked peer answers, `load` returns its bytes and touches nothing but the
trace. -/
theorem load_peer_ok (fuel : Nat) (g : Group) (key : String) (picker : PeerPicker)
    (peer : PeerGetter) (b : List UInt8)
    (hp : g.peers = some picker) (hpick : picker key = some peer)
    (hok : peer g.name key = (b, none)) :
    Group.load fuel g key =
      some ((⟨b⟩, none),
        { g with trace := g.trace ++ [Event.pickPeer key, Event.peerGet g.name key] }) := by
  obtain ⟨name, getter, mc, peers, trace⟩ := g
  simp only at hp hok
  subst hp
  simp [Group.load, hpick, Group.getFromPeer, hok]

/-- C11 (remote hits are not cached locally): take a Group with a registered picker, a
non-empty key `k` that the local cache does not hold, and a picked peer whose fetch
returns bytes `b`. Then `Get(k)` returns a ByteView with contents `b`, does not invoke
the loader and leaves the local cache exactly as it was, after one remote fetch; so the
`Get(k)` that follows misses the local cache again and makes one more remote fetch,
with the same outcome. -/
theorem Group_remote_hit (g : Group) (k : String) (hk : k ≠ "") (picker : PeerPicker)
    (peer : PeerGetter) (b : List UInt8)
    (hp : g.peers = some picker) (hpick : picker k = some peer)
    (hok : peer g.name k = (b, none))
    (hmiss : (g.mainCache.get k).1 = none) (fuel : Nat) :
    ∃ g1 g2,
      Group.Get fuel g k = some ((⟨b⟩, none), g1) ∧
      g1.mainCache = g.mainCache ∧
      loaderCalls g1.trace = loaderCalls g.trace ∧
      remoteFetches g1.trace = remoteFetches g.trace + 1 ∧
      (g1.mainCache.get k).1 = none ∧
      Group.Get fuel g1 k = some ((⟨b⟩, none), g2) ∧
      g2.mainCache = g.mainCache ∧
      loaderCalls g2.trace = loaderCalls g.trace ∧
      remoteFetches g2.trace = remoteFetches g1.trace + 1 := by
  have h1 : Group.Get fuel g k = some ((⟨b⟩, none),
      { g with trace := g.trace ++ [Event.pickPeer k, Event.peerGet g.name k] }) := by
    rw [Get_miss hk hmiss]
    exact load_peer_ok fuel g k picker peer b hp hpick hok
  have h2 : Group.Get fuel
      { g with trace := g.trace ++ [Event.pickPeer k, Event.peerGet g.name k] } k
      = some ((⟨b⟩, none),
        { g with trace := (g.trace ++ [Event.pickPeer k, Event.peerGet g.name k]) ++
          [Event.pickPeer k, Event.peerGet g.name k] }) := by
    have hm1 : (({ g with trace := g.trace ++ [Event.pickPeer k, Event.peerGet g.name k] }
      : Group).mainCache.get k).1 = none := hmiss
    rw [Get_miss hk hm1]
    exact load_peer_ok fuel
      { g with trace := g.trace ++ [Event.pickPeer k, Event.peerGet g.name k] }
      k picker peer b hp hpick hok
  refine ⟨_, _, h1, rfl, ?_, ?_, hmiss, h2, rfl, ?_, ?_⟩
  · simp [loaderCalls_append, loaderCalls]
  · simp [remoteFetches_append, remoteFetches]
  · simp [loaderCalls_append, loaderCalls]
  · simp [remoteFetches_append, remoteFetches]

theorem Group_remote_hit_witness :
    ∃ g1 : Group,
      Group.Get 0 ⟨"scores", fun _ => ([51, 51, 48], none), ⟨2048, none⟩,
        some (fun _ => some (fun _ _ => ([7], none))), []⟩ "Tom"
        = some ((⟨[7]⟩, none), g1) ∧
      loaderCalls g1.trace = 0 ∧ remoteFetches g1.trace = 1 ∧ (g1.mainCache.get "Tom").1 = none := by
  obtain ⟨g1, g2, h1, -, h3, h4, h5, -⟩ := Group_remote_hit
    ⟨"scores", fun _ => ([51, 51, 48], none), ⟨2048, none⟩,
      some (fun _ => some (fun _ _ => ([7], none))), []⟩
    "Tom" (by decide) (fun _ => some (fun _ _ => ([7], none))) (fun _ _ => ([7], none)) [7]
    rfl rfl rfl rfl 0
  exact ⟨g1, h1, h3, h4, h5⟩

/-- A `load` that reaches the local load is the local load, made after peer events that
hold no loader call. -/
theorem load_local (fuel : Nat) (g : Group) (key : String) (h : g.reachesLocalLoad key) :
    ∃ pre, loaderCalls pre = 0 ∧
      Group.load fuel g key = Group.getLocally fuel { g with trace := g.trace ++ pre } key := by
  obtain ⟨name, getter, mc, peers, trace⟩ := g
  cases peers with
  | none => exact ⟨[], rfl, by simp [Group.load]⟩
  | some picker =>
    cases hpick : picker key with
    | none => exact ⟨[Event.pickPeer key], rfl, by simp [Group.load, hpick]⟩
    | some peer =>
      have hne := h picker peer rfl hpick
      simp only at hne
      cases hres : (peer name key).2 with
      | none => exact absurd hres hne
      | some err =>
        refine ⟨[Event.pickPeer key, Event.peerGet name key, Event.logPeerFailure err], rfl, ?_⟩
        simp [Group.load, hpick, Group.getFromPeer, hres]

/-- C12 (loader failure is propagated and not cached): take a Group and a non-empty key
`k` that the local cache does not hold and whose `load` reaches the local load. If the
loader returns the error `e`, `Get(k)` returns exactly `e` with the empty ByteView,
after one loader call and with the local cache unchanged; and the `Get(k)` that follows
invokes the loader once more. -/
theorem Group_loader_failure (g : Group) (k : String) (hk : k ≠ "")
    (hmiss : (g.mainCache.get k).1 = none) (hlocal : g.reachesLocalLoad k)
    (b2 : List UInt8) (e : String) (hload : g.getter k = (b2, some e)) (fuel : Nat) :
    ∃ g1 g2,
      Group.Get fuel g k = some ((⟨[]⟩, some e), g1) ∧
      g1.mainCache = g.mainCache ∧
      loaderCalls g1.trace = loaderCalls g.trace + 1 ∧
      Group.Get fuel g1 k = some ((⟨[]⟩, some e), g2) ∧
      g2.mainCache = g.mainCache ∧
      loaderCalls g2.trace = loaderCalls g1.trace + 1 := by
  obtain ⟨pre, hpre, hl⟩ := load_local fuel g k hlocal
  have h1 : Group.Get fuel g k = some ((⟨[]⟩, some e),
      { g with trace := (g.trace ++ pre) ++ [Event.loaderCall k] }) := by
    rw [Get_miss hk hmiss, hl]
    exact getLocally_err fuel { g with trace := g.trace ++ pre } k b2 e hload
  have hlocal1 : Group.reachesLocalLoad
      { g with trace := (g.trace ++ pre) ++ [Event.loaderCall k] } k := hlocal
  obtain ⟨pre1, hpre1, hl1⟩ := load_local fuel
    { g with trace := (g.trace ++ pre) ++ [Event.loaderCall k] } k hlocal1
  have h2 : Group.Get fuel { g with trace := (g.trace ++ pre) ++ [Event.loaderCall k] } k
      = some ((⟨[]⟩, some e),
        { g with trace := (((g.trace ++ pre) ++ [Event.loaderCall k]) ++ pre1)
          ++ [Event.loaderCall k] }) := by
    have hm1 : (({ g with trace := (g.trace ++ pre) ++ [Event.loaderCall k] }
      : Group).mainCache.get k).1 = none := hmiss
    rw [Get_miss hk hm1, hl1]
    exact getLocally_err fuel
      { g with trace := ((g.trace ++ pre) ++ [Event.loaderCall k]) ++ pre1 } k b2 e hload
  have hone : loaderCalls [Event.loaderCall k] = 1 := rfl
  refine ⟨_, _, h1, rfl, ?_, h2, rfl, ?_⟩
  · simp only [loaderCalls_append, hpre, hone]
  · simp only [loaderCalls_append, hpre, hpre1, hone]

theorem Group_loader_failure_witness :
    ∃ g1 : Group,
      Group.Get 0 ⟨"scores", fun _ => ([], some "not exist"), ⟨2048, none⟩, none, []⟩ "Sam"
        = some ((⟨[]⟩, some "not exist"), g1) ∧
      loaderCalls g1.trace = 1 ∧ g1.mainCache.entries = 0 := by
  obtain ⟨g1, g2, h1, h2, h3, -⟩ := Group_loader_failure
    ⟨"scores", fun _ => ([], some "not exist"), ⟨2048, none⟩, none, []⟩
    "Sam" (by decide) rfl (by intro p peer hp; cases hp) [] "not exist" rfl 0
  exact ⟨g1, h1, h3, by rw [h2]; rfl⟩

/-- A Group made by `NewGroup` has no picker registered. -/
theorem NewGroup_peers (groups : Groups) (name : String) (cacheBytes : Int) (getter : Getter) :
    ∃ g groups1, NewGroup groups name cacheBytes (some getter) = Except.ok (g, groups1) ∧
      g.peers = none ∧ GetGroup groups1 name = some g :=
  ⟨_, _, rfl, rfl, by simp [GetGroup]⟩

/-- C13 (`RegisterPeers` may be called exactly once): on a Group with no picker
registered, as `NewGroup` makes it, the first call `RegisterPeers(p1)` with a picker
`p1` returns normally and installs `p1`; a second call `RegisterPeers(p2)` panics with
"RegisterPeerPicker called more than once" and leaves `p1` installed. -/
theorem RegisterPeers_once (g : Group) (hfresh : g.peers = none) (p1 p2 : PeerPicker) :
    g.RegisterPeers (some p1) = (none, { g with peers := some p1 }) ∧
    (g.RegisterPeers (some p1)).2.RegisterPeers (some p2)
      = (some "RegisterPeerPicker called more than once", { g with peers := some p1 }) := by
  simp [Group.RegisterPeers, hfresh]

theorem RegisterPeers_once_witness :
    ((Group.RegisterPeers ⟨"scores", fun _ => ([], none), ⟨2048, none⟩, none, []⟩
      (some (fun _ => none))).2.RegisterPeers (some (fun _ => none))).1
      = some "RegisterPeerPicker called more than once" := by
  have h := RegisterPeers_once ⟨"scores", fun _ => ([], none), ⟨2048, none⟩, none, []⟩ rfl
    (fun _ => none) (fun _ => none)
  rw [h.2]

end cacheFlex

/-! ## The peer transport over HTTP -/

namespace strings

theorem HasPrefix_append (pre rest : String) : HasPrefix (pre ++ rest) pre = true := by
  unfold HasPrefix
  rw [String.data_append, List.isPrefixOf_iff_prefix]
  exact List.prefix_append _ _

theorem sliceFrom_append (pre rest : String) : sliceFrom (pre ++ rest) pre = rest := by
  unfold sliceFrom
  rw [String.data_append, List.drop_left]

theorem exists_append_of_HasPrefix {s pre : String} (h : HasPrefix s pre = true) :
    ∃ rest, s = pre ++ rest := by
  unfold HasPrefix at h
  rw [List.isPrefixOf_iff_prefix] at h
  obtain ⟨t, ht⟩ := h
  refine ⟨String.mk t, ?_⟩
  apply String.ext
  rw [String.data_append, ht]

theorem cut_of_not_mem {sep : Char} {l : List Char} (h : sep ∉ l) : cut sep l = none := by
  induction l with
  | nil => rfl
  | cons c cs ih =>
    have hc : c ≠ sep := fun hc => h (by simp [hc])
    have hcs : sep ∉ cs := fun hm => h (List.mem_cons_of_mem _ hm)
    simp [cut, hc, ih hcs]

theorem cut_append {sep : Char} {a : List Char} (b : List Char) (h : sep ∉ a) :
    cut sep (a ++ sep :: b) = some (a, b) := by
  induction a with
  | nil => simp [cut]
  | cons c cs ih =>
    have hc : c ≠ sep := fun hc => h (by simp [hc])
    have hcs : sep ∉ cs := fun hm => h (List.mem_cons_of_mem _ hm)
    simp [cut, hc, ih hcs]

theorem exists_cut_of_mem {sep : Char} {l : List Char} (h : sep ∈ l) :
    ∃ a b, l = a ++ sep :: b ∧ sep ∉ a := by
  induction l with
  | nil => cases h
  | cons c cs ih =>
    by_cases hc : c = sep
    · exact ⟨[], cs, by simp [hc], by simp⟩
    · have hcs : sep ∈ cs := by
        rcases List.mem_cons.1 h with h1 | h1
        · exact absurd h1.symm hc
        · exact h1
      obtain ⟨a, b, hab, ha⟩ := ih hcs
      refine ⟨c :: a, b, by simp [hab], ?_⟩
      intro hm
      rcases List.mem_cons.1 hm with h1 | h1
      · exact hc h1.symm
      · exact ha h1

theorem SplitN_of_not_mem {s : String} (h : '/' ∉ s.data) : SplitN s '/' = [s] := by
  simp [SplitN, cut_of_not_mem h]

theorem SplitN_append (a b : String) (h : '/' ∉ a.data) :
    SplitN (a ++ "/" ++ b) '/' = [a, b] := by
  have hd : (a ++ "/" ++ b).data = a.data ++ '/' :: b.data := by
    simp [String.data_append]
  simp [SplitN, hd, cut_append b.data h]

theorem exists_split_of_mem {s : String} (h : '/' ∈ s.data) :
    ∃ a b : String, s = a ++ "/" ++ b ∧ '/' ∉ a.data := by
  obtain ⟨a, b, hab, ha⟩ := exists_cut_of_mem h
  refine ⟨String.mk a, String.mk b, ?_, ha⟩
  apply String.ext
  simp [String.data_append, hab]

end strings

namespace cacheFlex

open lru

/-- C14, at a failing input: after `Set`, the getter of the peer
`http://localhost:8001` has the base URL `http://localhost:8001/_cacheFlex/`, and for
the group `scores` and the key `Tom` it requests
`http://localhost:8001/_cacheFlex/scoresTom`: the escaped group and key follow each
other with no `/` in between (this holds for every group and key). On the path
`/_cacheFlex/scoresTom` the receiving `ServeHTTP` finds a single component and answers
400 bad request, although the group `scores` exists; the path `/_cacheFlex/scores/Tom`
is the one it would resolve to that group and key. -/
theorem peer_request_lacks_separator :
    (∀ (h : httpGetter) (group key : String),
      h.requestURL group key = h.baseURL ++ url.QueryEscape group ++ url.QueryEscape key) ∧
    (((NewHTTPPool "http://localhost:8002").Set ["http://localhost:8001"]).httpGetters
      "http://localhost:8001").map (fun h => (h.baseURL, h.requestURL "scores" "Tom"))
      = some ("http://localhost:8001/_cacheFlex/",
          "http://localhost:8001/_cacheFlex/scoresTom") ∧
    url.pathAt "http://localhost:8001" "http://localhost:8001/_cacheFlex/scoresTom"
      = some "/_cacheFlex/scoresTom" ∧
    strings.SplitN (strings.sliceFrom "/_cacheFlex/scoresTom" defaultBasePath) '/'
      = ["scoresTom"] ∧
    ((NewHTTPPool "http://localhost:8001").ServeHTTP 2
      (fun n => if n = "scores" then
        some ⟨"scores", fun _ => ([51, 51, 48], none), ⟨2048, none⟩, none, []⟩ else none)
      "/_cacheFlex/scoresTom").bind Served.reply = some (http.Error "bad request" 400) ∧
    ((NewHTTPPool "http://localhost:8001").ServeHTTP 2
      (fun n => if n = "scores" then
        some ⟨"scores", fun _ => ([51, 51, 48], none), ⟨2048, none⟩, none, []⟩ else none)
      "/_cacheFlex/scores/Tom").bind Served.reply
      = some ⟨200, "application/octet-stream", http.Body.bytes [51, 51, 48]⟩ := by
  refine ⟨fun _ _ _ => rfl, by decide, by decide, by decide, by decide, by decide⟩

end cacheFlex

/-! ## The receiving side: `ServeHTTP` -/

namespace cacheFlex

open lru

theorem Get_empty_eq (fuel : Nat) (g : Group) :
    Group.Get fuel g "" = some ((⟨[]⟩, some "key is required"), g) := by
  simp [Group.Get]

/-- A local load that returns appends one loader call to the trace, and its bytes, if
any, are the loader's. -/
theorem getLocally_trace {fuel : Nat} {g : Group} {key : String} {r : Result}
    (h : Group.getLocally fuel g key = some r) :
    r.2.trace = g.trace ++ [Event.loaderCall key] ∧
    (r.1.2 = none → g.getter key = (r.1.1.bytes, none)) := by
  rcases hg : g.getter key with ⟨b, _ | e⟩
  · rw [getLocally_ok fuel g key b hg] at h
    simp only [Option.map_eq_some'] at h
    obtain ⟨m, -, rfl⟩ := h
    exact ⟨rfl, fun _ => rfl⟩
  · rw [getLocally_err fuel g key b e hg] at h
    cases h
    exact ⟨rfl, fun hn => by simp at hn⟩

/-- Which peers a `Get` that returns has used, and where its bytes come from. -/
theorem Get_peer_use {fuel : Nat} {g : Group} {key : String} {r : Result}
    (h : Group.Get fuel g key = some r) :
    ((key = "" ∨ (g.mainCache.get key).1.isSome = true ∨ g.peers = none) →
      peerCalls r.2.trace = peerCalls g.trace) ∧
    (∀ picker, key ≠ "" → (g.mainCache.get key).1 = none → g.peers = some picker →
      peerPicks r.2.trace = peerPicks g.trace + 1 ∧
      remoteFetches r.2.trace
        = remoteFetches g.trace + (if (picker key).isSome then 1 else 0)) ∧
    (remoteFetches r.2.trace = remoteFetches g.trace → r.1.2 = none →
      (g.mainCache.get key).1 = some r.1.1 ∨ g.getter key = (r.1.1.bytes, none)) := by
  by_cases hk : key = ""
  · subst hk
    rw [(Get_empty_eq fuel g)] at h
    cases h
    exact ⟨fun _ => rfl, fun _ hne => absurd rfl hne, fun _ hn => by simp at hn⟩
  · cases hc : (g.mainCache.get key).1 with
    | some v =>
      rw [Get_hit hk hc] at h
      cases h
      refine ⟨fun _ => ?_, fun _ _ hm => by simp at hm, fun _ _ => Or.inl rfl⟩
      simp [peerCalls_append, peerCalls]
    | none =>
      rw [Get_miss hk hc] at h
      obtain ⟨name, getter, mc, peers, trace⟩ := g
      cases peers with
      | none =>
        have hl : Group.load fuel ⟨name, getter, mc, none, trace⟩ key
            = Group.getLocally fuel ⟨name, getter, mc, none, trace⟩ key := by
          simp [Group.load]
        rw [hl] at h
        obtain ⟨ht, hb⟩ := getLocally_trace h
        simp only at ht hb hc
        refine ⟨fun _ => ?_, fun _ _ _ hp => by simp at hp, fun _ hn => Or.inr (hb hn)⟩
        rw [ht]
        simp [peerCalls_append, peerCalls]
      | some picker =>
        cases hpick : picker key with
        | none =>
          have hl : Group.load fuel ⟨name, getter, mc, some picker, trace⟩ key
              = Group.getLocally fuel
                ⟨name, getter, mc, some picker, trace ++ [Event.pickPeer key]⟩ key := by
            simp [Group.load, hpick]
          rw [hl] at h
          obtain ⟨ht, hb⟩ := getLocally_trace h
          simp only at ht hb hc
          refine ⟨?_, ?_, fun _ hn => Or.inr (hb hn)⟩
          · rintro (h1 | h1 | h1)
            · exact absurd h1 hk
            · simp_all
            · simp at h1
          · intro picker1 _ _ hp
            simp only [Option.some.injEq] at hp
            subst hp
            rw [ht, hpick]
            simp [peerPicks_append, remoteFetches_append, peerPicks, remoteFetches]
        | some peer =>
          rcases hres : peer name key with ⟨b, _ | err⟩
          · have hl := load_peer_ok fuel ⟨name, getter, mc, some picker, trace⟩ key picker
              peer b rfl hpick hres
            rw [hl] at h
            cases h
            refine ⟨?_, ?_, ?_⟩
            · rintro (h1 | h1 | h1)
              · exact absurd h1 hk
              · simp_all
              · simp at h1
            · intro picker1 _ _ hp
              simp only [Option.some.injEq] at hp
              subst hp
              rw [hpick]
              simp [peerPicks_append, remoteFetches_append, peerPicks, remoteFetches]
            · intro hrf
              simp [remoteFetches_append, remoteFetches] at hrf
          · have hl := load_peer_failed fuel ⟨name, getter, mc, some picker, trace⟩ key picker
              peer b err rfl hpick hres
            rw [hl] at h
            obtain ⟨ht, hb⟩ := getLocally_trace h
            simp only at ht hb hc
            refine ⟨?_, ?_, ?_⟩
            · rintro (h1 | h1 | h1)
              · exact absurd h1 hk
              · simp_all
              · simp at h1
            · intro picker1 _ _ hp
              simp only [Option.some.injEq] at hp
              subst hp
              rw [ht, hpick]
              simp [peerPicks_append, remoteFetches_append, peerPicks, remoteFetches]
            · intro hrf
              rw [ht] at hrf
              simp [remoteFetches_append, remoteFetches] at hrf

/-- On a path that resolves to a registered Group, `ServeHTTP` calls that Group's `Get`
and turns its result into the response. -/
theorem ServeHTTP_resolved (fuel : Nat) (p : HTTPPool) (groups : Groups)
    (groupName key : String) (g : Group) (hname : '/' ∉ groupName.data)
    (hg : GetGroup groups groupName = some g) :
    p.ServeHTTP fuel groups (p.basePath ++ (groupName ++ "/" ++ key)) =
      (g.Get fuel key).map (fun r =>
        match r.1.2 with
        | some err =>
          Served.response (http.Error err 500)
            (fun n => if n = groupName then some r.2 else groups n)
        | none =>
          Served.response ⟨200, "application/octet-stream", http.Body.bytes r.1.1.ByteSlice⟩
            (fun n => if n = groupName then some r.2 else groups n)) := by
  simp only [HTTPPool.ServeHTTP, strings.HasPrefix_append, strings.sliceFrom_append,
    strings.SplitN_append groupName key hname, hg, Bool.not_true, Bool.false_eq_true, if_false]

/-- C15 as stated fails, at an explicit request: the Group `scores` has a picker that
returns a peer, its cache is empty, and the request path is `/_cacheFlex/scores/Tom`.
`ServeHTTP` picks the peer and fetches from it: the trace of the Group shows one pick
and one remote fetch, the loader is not called, and the body is the peer's bytes `[7]`,
not the loader's. -/
theorem ServeHTTP_consults_peer :
    ((NewHTTPPool "http://localhost:8001").ServeHTTP 2
      (fun n => if n = "scores" then
        some ⟨"scores", fun _ => ([51, 51, 48], none), ⟨2048, none⟩,
          some (fun _ => some (fun _ _ => ([7], none))), []⟩ else none)
      "/_cacheFlex/scores/Tom").map
        (fun s => (s.reply, (s.group "scores").map (fun g => (g.trace, peerCalls g.trace))))
      = some (some ⟨200, "application/octet-stream", http.Body.bytes [7]⟩,
          some ([Event.pickPeer "Tom", Event.peerGet "scores" "Tom"], 2)) := by
  decide

/-- C15, amended: for every request that `ServeHTTP` resolves to a registered Group and
a key, the handling is that Group's `Get(key)`, whose outcome becomes the response and
the new state of the Group. It picks no peer and makes no remote fetch when the key is
empty, the key is in the Group's local cache, or no picker is registered. With a picker
registered and a non-empty key that misses the local cache, the picker is asked once,
and a remote fetch is made exactly when it returns a peer. Whenever no remote fetch is
made, the bytes returned come from the Group's local cache or from its loader. -/
theorem ServeHTTP_peer_use (fuel : Nat) (p : HTTPPool) (groups : Groups)
    (groupName key : String) (g : Group) (hname : '/' ∉ groupName.data)
    (hg : GetGroup groups groupName = some g) (s : Served)
    (hs : p.ServeHTTP fuel groups (p.basePath ++ (groupName ++ "/" ++ key)) = some s) :
    ∃ r, g.Get fuel key = some r ∧ s.group groupName = some r.2 ∧
      (r.1.2 = none →
        s.reply = some ⟨200, "application/octet-stream", http.Body.bytes r.1.1.bytes⟩) ∧
      ((key = "" ∨ (g.mainCache.get key).1.isSome = true ∨ g.peers = none) →
        peerCalls r.2.trace = peerCalls g.trace) ∧
      (∀ picker, key ≠ "" → (g.mainCache.get key).1 = none → g.peers = some picker →
        peerPicks r.2.trace = peerPicks g.trace + 1 ∧
        remoteFetches r.2.trace
          = remoteFetches g.trace + (if (picker key).isSome then 1 else 0)) ∧
      (remoteFetches r.2.trace = remoteFetches g.trace → r.1.2 = none →
        (g.mainCache.get key).1 = some r.1.1 ∨ g.getter key = (r.1.1.bytes, none)) := by
  rw [ServeHTTP_resolved fuel p groups groupName key g hname hg] at hs
  simp only [Option.map_eq_some'] at hs
  obtain ⟨r, hr, rfl⟩ := hs
  obtain ⟨h1, h2, h3⟩ := Get_peer_use hr
  refine ⟨r, hr, ?_, ?_, h1, h2, h3⟩
  · cases r.1.2 <;> simp [Served.group]
  · intro hn
    rw [hn]
    rfl

theorem ServeHTTP_peer_use_witness :
    ∃ s r, (NewHTTPPool "http://localhost:8001").ServeHTTP 2
      (fun n => if n = "scores" then
        some ⟨"scores", fun _ => ([51, 51, 48], none), ⟨2048, none⟩,
          some (fun _ => none), []⟩ else none)
      "/_cacheFlex/scores/Tom" = some s ∧
      s.group "scores" = some r ∧
      s.reply = some ⟨200, "application/octet-stream", http.Body.bytes [51, 51, 48]⟩ ∧
      peerPicks r.trace = 1 ∧ remoteFetches r.trace = 0 := by
  have hs : ∃ s, (NewHTTPPool "http://localhost:8001").ServeHTTP 2
      (fun n => if n = "scores" then
        some ⟨"scores", fun _ => ([51, 51, 48], none), ⟨2048, none⟩,
          some (fun _ => none), []⟩ else none)
      "/_cacheFlex/scores/Tom" = some s ∧
      s.reply = some ⟨200, "application/octet-stream", http.Body.bytes [51, 51, 48]⟩ :=
    ⟨_, rfl, by decide⟩
  obtain ⟨s, hs1, hs2⟩ := hs
  obtain ⟨r, -, hr2, -, -, hr5, -⟩ := ServeHTTP_peer_use 2 (NewHTTPPool "http://localhost:8001")
    (fun n => if n = "scores" then
      some ⟨"scores", fun _ => ([51, 51, 48], none), ⟨2048, none⟩,
        some (fun _ => none), []⟩ else none)
    "scores" "Tom" ⟨"scores", fun _ => ([51, 51, 48], none), ⟨2048, none⟩,
        some (fun _ => none), []⟩ (by decide) rfl s hs1
  obtain ⟨h1, h2⟩ := hr5 (fun _ => none) (by decide) rfl rfl
  exact ⟨s, r.2, hs1, hr2, hs2, h1, h2⟩

/-- C18 (inbound request resolution): a request path that does not start with the base
path makes `ServeHTTP` panic. A path that does is the base path followed by some `rest`,
and a `rest` with a `/` is `groupName`, a `/`, and `key`, where `groupName` has no `/`
(the key may have some). If `rest` has no `/`, the response is 400 "bad request",
whatever the Groups are. On the base path followed by `groupName`, a `/` and `key`: a
`groupName` that the registry `groups` does not hold gives 404 "no such group: " and the
name; for a `groupName` that the registry maps to a Group the empty key gives 500 "key is
required", an error of that Group's `Get` gives 500 with the error text, and a `Get`
without error gives status 200 with exactly the bytes of the returned ByteView as the
body. -/
theorem ServeHTTP_resolution (fuel : Nat) (p : HTTPPool) (groups : Groups) (path : String) :
    (strings.HasPrefix path p.basePath = false →
      p.ServeHTTP fuel groups path
        = some (Served.panic ("HTTPPool serving unexpected path: " ++ path))) ∧
    (strings.HasPrefix path p.basePath = true →
      ∃ rest, path = p.basePath ++ rest ∧
        ('/' ∈ rest.data →
          ∃ groupName key, rest = groupName ++ "/" ++ key ∧ '/' ∉ groupName.data)) ∧
    (∀ rest, path = p.basePath ++ rest → '/' ∉ rest.data →
      p.ServeHTTP fuel groups path
        = some (Served.response (http.Error "bad request" 400) groups)) ∧
    (∀ groupName key, path = p.basePath ++ (groupName ++ "/" ++ key) →
      '/' ∉ groupName.data →
      (groups groupName = none →
        p.ServeHTTP fuel groups path = some (Served.response
          (http.Error ("no such group: " ++ groupName) 404) groups)) ∧
      (∀ g, groups groupName = some g →
        (key = "" → (p.ServeHTTP fuel groups path).bind Served.reply
          = some (http.Error "key is required" 500)) ∧
        (∀ r, g.Get fuel key = some r →
          (∀ err, r.1.2 = some err →
            p.ServeHTTP fuel groups path = some (Served.response (http.Error err 500)
              (fun n => if n = groupName then some r.2 else groups n))) ∧
          (r.1.2 = none →
            p.ServeHTTP fuel groups path = some (Served.response
              ⟨200, "application/octet-stream", http.Body.bytes r.1.1.bytes⟩
              (fun n => if n = groupName then some r.2 else groups n)))))) := by
  refine ⟨?_, ?_, ?_, ?_⟩
  · intro h
    simp [HTTPPool.ServeHTTP, h]
  · intro h
    obtain ⟨rest, rfl⟩ := strings.exists_append_of_HasPrefix h
    refine ⟨rest, rfl, ?_⟩
    intro hmem
    exact strings.exists_split_of_mem hmem
  · intro rest hpath hno
    subst hpath
    simp [HTTPPool.ServeHTTP, strings.HasPrefix_append, strings.sliceFrom_append,
      strings.SplitN_of_not_mem hno]
  · intro groupName key hpath hname
    subst hpath
    refine ⟨?_, ?_⟩
    · intro hg
      simp [HTTPPool.ServeHTTP, strings.HasPrefix_append, strings.sliceFrom_append,
        strings.SplitN_append groupName key hname, GetGroup, hg]
    · intro g hg
      rw [ServeHTTP_resolved fuel p groups groupName key g hname hg]
      refine ⟨?_, ?_⟩
      · intro hk
        subst hk
        rw [Get_empty_eq]
        rfl
      · intro r hr
        rw [hr]
        refine ⟨?_, ?_⟩
        · intro err herr
          simp [herr]
        · intro hn
          simp [hn, ByteView.ByteSlice, cloneBytes]

theorem ServeHTTP_resolution_witness :
    ∃ g groups, NewGroup (fun _ => none) "scores" 2048
        (some (fun k => if k = "Tom" then ([51, 51, 48], none)
          else ([], some (k ++ " not exist")))) = Except.ok (g, groups) ∧
      (NewHTTPPool "http://localhost:8001").ServeHTTP 2 groups "/other/scores/Tom"
        = some (Served.panic "HTTPPool serving unexpected path: /other/scores/Tom") ∧
      ((NewHTTPPool "http://localhost:8001").ServeHTTP 2 groups "/_cacheFlex/scores").bind
        Served.reply = some (http.Error "bad request" 400) ∧
      ((NewHTTPPool "http://localhost:8001").ServeHTTP 2 groups "/_cacheFlex/nobody/Tom").bind
        Served.reply = some (http.Error "no such group: nobody" 404) ∧
      ((NewHTTPPool "http://localhost:8001").ServeHTTP 2 groups "/_cacheFlex/scores/").bind
        Served.reply = some (http.Error "key is required" 500) ∧
      ((NewHTTPPool "http://localhost:8001").ServeHTTP 2 groups "/_cacheFlex/scores/a/b").bind
        Served.reply = some (http.Error "a/b not exist" 500) ∧
      ((NewHTTPPool "http://localhost:8001").ServeHTTP 2 groups "/_cacheFlex/scores/Tom").bind
        Served.reply
        = some ⟨200, "application/octet-stream", http.Body.bytes [51, 51, 48]⟩ := by
  refine ⟨_, _, rfl, ?_, ?_, ?_, ?_, ?_, ?_⟩
  · exact (ServeHTTP_resolution 2 (NewHTTPPool "http://localhost:8001") _
      "/other/scores/Tom").1 (by decide)
  · rw [(ServeHTTP_resolution 2 (NewHTTPPool "http://localhost:8001") _
      "/_cacheFlex/scores").2.2.1 "scores" (by decide) (by decide)]
    rfl
  · rw [((ServeHTTP_resolution 2 (NewHTTPPool "http://localhost:8001") _
      "/_cacheFlex/nobody/Tom").2.2.2 "nobody" "Tom" (by decide) (by decide)).1
        (if_neg (by decide))]
    rfl
  · exact (((ServeHTTP_resolution 2 (NewHTTPPool "http://localhost:8001") _
      "/_cacheFlex/scores/").2.2.2 "scores" "" (by decide) (by decide)).2 _
        (if_pos rfl)).1 rfl
  · have hr : ∃ r, Group.Get 2 (⟨"scores", fun k => if k = "Tom" then ([51, 51, 48], none)
          else ([], some (k ++ " not exist")), ⟨2048, none⟩, none, []⟩ : Group) "a/b"
          = some r ∧ r.1.2 = some "a/b not exist" :=
      ⟨_, rfl, by decide⟩
    obtain ⟨r, hr1, hr2⟩ := hr
    rw [((((ServeHTTP_resolution 2 (NewHTTPPool "http://localhost:8001") _
      "/_cacheFlex/scores/a/b").2.2.2 "scores" "a/b" (by decide) (by decide)).2 _
        (if_pos rfl)).2 r hr1).1 _ hr2]
    rfl
  · have hr : ∃ r, Group.Get 2 (⟨"scores", fun k => if k = "Tom" then ([51, 51, 48], none)
          else ([], some (k ++ " not exist")), ⟨2048, none⟩, none, []⟩ : Group) "Tom"
          = some r ∧ r.1.2 = none ∧ r.1.1.bytes = [51, 51, 48] :=
      ⟨_, rfl, by decide, by decide⟩
    obtain ⟨r, hr1, hr2, hr3⟩ := hr
    rw [((((ServeHTTP_resolution 2 (NewHTTPPool "http://localhost:8001") _
      "/_cacheFlex/scores/Tom").2.2.2 "scores" "Tom" (by decide) (by decide)).2 _
        (if_pos rfl)).2 r hr1).2 hr2, ← hr3]
    rfl

end cacheFlex
